import Mathlib

/-!
Verification of the range-query engine of `src/templates/segment_tree.py`:
the eager `SegmentTree` (point update, range sum query) and the
`LazySegmentTree` (range add with lazy propagation, range sum query).

The Python classes mutate two flat arrays (`self.tree`, and `self.lazy` for
the lazy variant) of size `4 n`, indexed by the implicit binary-heap layout
(root `0`, children of `i` at `2 i + 1` and `2 i + 2`).  The embedding models
each array as a total function `Nat → Int` (the Python arrays are only ever
indexed inside the allocated `4 n` slots for the executions considered, so
the functional model is faithful), and threads the mutated state explicitly.
Query/update bounds `l`, `r`, `idx` are Python ints and are modelled as `Int`;
node indices and segment endpoints are natural numbers, because for every
construction with `n ≥ 1` every recursive call satisfies
`0 ≤ start ≤ end ≤ n - 1`.  The one place where Python runs the recursion on
the invalid range `(0, -1)` — construction from an empty array — is modelled
separately (`buildZ` below) with `Int` endpoints and explicit fuel, because
there the Python recursion never terminates.
-/

/-- Pointwise store `f[i] := v`, the model of a Python list assignment. -/
def upd (f : Nat → Int) (i : Nat) (v : Int) : Nat → Int :=
  fun j => if j = i then v else f j

/-- `isDesc k j` means heap node `j` lies in the subtree rooted at node `k`
(`j` is `k` or a descendant of `k`); the parent of node `j + 1` is `j / 2`. -/
def isDesc (k : Nat) (j : Nat) : Prop :=
  match j with
  | 0 => k = 0
  | j' + 1 => k = j' + 1 ∨ isDesc k (j' / 2)
termination_by j
decreasing_by omega

/-- Embedding of `SegmentTree.build` (lines 28–36); the `LazySegmentTree.build`
method (lines 98–106) is textually identical, so both classes share it.
The final `else t` branch is unreachable for the ranges arising from any
construction with `n ≥ 1` (the recursion keeps `start ≤ end`); Python's code
would recurse forever there, which only happens for `n = 0` and is modelled
separately by `buildZ`. -/
def buildHelper (a : Nat → Int) (t : Nat → Int) (node start end_ : Nat) : Nat → Int :=
  if start = end_ then upd t node (a start)
  else if _h : start < end_ then
    let mid := (start + end_) / 2
    let t1 := buildHelper a t (2 * node + 1) start mid
    let t2 := buildHelper a t1 (2 * node + 2) (mid + 1) end_
    upd t2 node (t2 (2 * node + 1) + t2 (2 * node + 2))
  else t
termination_by end_ - start
decreasing_by
  · omega
  · omega

namespace SegmentTree

/-- Embedding of `SegmentTree.__init__` for `n ≥ 1`: allocate `[0] * (4 n)`
and build over `[0, n - 1]`. -/
def init (a : Nat → Int) (n : Nat) : Nat → Int :=
  buildHelper a (fun _ => 0) 0 0 (n - 1)

/-- Embedding of `SegmentTree._update_helper` (lines 42–52).  The `else t`
branch is unreachable when the initial range is valid (`start ≤ end`). -/
def updateHelper (t : Nat → Int) (idx val : Int) (node start end_ : Nat) : Nat → Int :=
  if start = end_ then upd t node val
  else if _h : start < end_ then
    let mid := (start + end_) / 2
    let t1 := if idx ≤ (mid : Int) then updateHelper t idx val (2 * node + 1) start mid
              else updateHelper t idx val (2 * node + 2) (mid + 1) end_
    upd t1 node (t1 (2 * node + 1) + t1 (2 * node + 2))
  else t
termination_by end_ - start
decreasing_by
  · omega
  · omega

/-- Embedding of `SegmentTree.update` (lines 38–40). -/
def update (t : Nat → Int) (n : Nat) (idx val : Int) : Nat → Int :=
  updateHelper t idx val 0 0 (n - 1)

/-- Embedding of `SegmentTree._query_helper` (lines 66–77): out-of-range
nodes contribute `0`, fully covered nodes return their stored aggregate,
partially overlapping nodes recurse into both children.  The partial branch
implies `start < end`, so the recursion is total on all inputs. -/
def queryHelper (t : Nat → Int) (l r : Int) (node start end_ : Nat) : Int :=
  if _h1 : r < (start : Int) ∨ (end_ : Int) < l then 0
  else if _h2 : l ≤ (start : Int) ∧ (end_ : Int) ≤ r then t node
  else
    let mid := (start + end_) / 2
    queryHelper t l r (2 * node + 1) start mid +
      queryHelper t l r (2 * node + 2) (mid + 1) end_
termination_by end_ - start
decreasing_by
  · omega
  · omega

/-- Embedding of `SegmentTree.query` (lines 54–64). -/
def query (t : Nat → Int) (n : Nat) (l r : Int) : Int :=
  queryHelper t l r 0 0 (n - 1)

end SegmentTree

/-- The eager-tree invariant of the spec's §3, stated over the node/range
decomposition used by the code: a leaf node covering the single index `start`
holds the current value `a start`, and an internal node holds the sum of its
two children, recursively. -/
def eagerInv (t a : Nat → Int) (node start end_ : Nat) : Prop :=
  if start = end_ then t node = a start
  else if _h : start < end_ then
    let mid := (start + end_) / 2
    t node = t (2 * node + 1) + t (2 * node + 2) ∧
      eagerInv t a (2 * node + 1) start mid ∧
      eagerInv t a (2 * node + 2) (mid + 1) end_
  else True
termination_by end_ - start
decreasing_by
  · omega
  · omega

/-- The leaf of the range `[start, end]` that `_update_helper` actually writes
when called with index `idx`: the recursion descends towards `idx` but never
checks bounds, so an index beyond the range is silently clamped to the
nearest boundary leaf. -/
def clampIdx (idx : Int) (start end_ : Nat) : Nat :=
  if idx < (start : Int) then start
  else if (end_ : Int) < idx then end_
  else idx.toNat

namespace LazySegmentTree

/-- The mutable state of a `LazySegmentTree`: the aggregate array `self.tree`
and the pending-update array `self.lazy` (lines 92–96). -/
@[ext] structure State where
  tree : Nat → Int
  lazy : Nat → Int

/-- Embedding of `LazySegmentTree.__init__` for `n ≥ 1`: both arrays start as
`[0] * (4 n)` and `build` fills the tree over `[0, n - 1]`. -/
def init (a : Nat → Int) (n : Nat) : State :=
  { tree := buildHelper a (fun _ => 0) 0 0 (n - 1), lazy := fun _ => 0 }

/-- Embedding of `LazySegmentTree._push` (lines 108–117): if the node has a
pending value, apply it to the node's aggregate (`(end - start + 1)` copies),
accumulate it into both children's pending slots when the node is not a leaf,
and clear the node's pending slot. -/
def push (s : State) (node start end_ : Nat) : State :=
  if s.lazy node ≠ 0 then
    let t1 := upd s.tree node (s.tree node + ((end_ : Int) - (start : Int) + 1) * s.lazy node)
    let lz1 :=
      if start ≠ end_ then
        upd (upd s.lazy (2 * node + 1) (s.lazy (2 * node + 1) + s.lazy node))
          (2 * node + 2) (s.lazy (2 * node + 2) + s.lazy node)
      else s.lazy
    { tree := t1, lazy := upd lz1 node 0 }
  else s

/-- Embedding of `LazySegmentTree._range_update_helper` (lines 125–140):
push first, then return on no overlap, record-and-repush on full coverage,
or recurse into both children and recompute the aggregate. -/
def rangeUpdateHelper (s : State) (l r val : Int) (node start end_ : Nat) : State :=
  let s1 := push s node start end_
  if _h1 : r < (start : Int) ∨ (end_ : Int) < l then s1
  else if _h2 : l ≤ (start : Int) ∧ (end_ : Int) ≤ r then
    push { s1 with lazy := upd s1.lazy node (s1.lazy node + val) } node start end_
  else
    let mid := (start + end_) / 2
    let s2 := rangeUpdateHelper s1 l r val (2 * node + 1) start mid
    let s3 := rangeUpdateHelper s2 l r val (2 * node + 2) (mid + 1) end_
    { s3 with tree := upd s3.tree node (s3.tree (2 * node + 1) + s3.tree (2 * node + 2)) }
termination_by end_ - start
decreasing_by
  · omega
  · omega

/-- Embedding of `LazySegmentTree.range_update` (lines 119–123). -/
def rangeUpdate (s : State) (n : Nat) (l r val : Int) : State :=
  rangeUpdateHelper s l r val 0 0 (n - 1)

/-- Embedding of `LazySegmentTree._range_query_helper` (lines 146–159).
Note the order in the source: the no-overlap test and its early `return 0`
come BEFORE the `_push`, so a fully-outside node is left untouched. -/
def rangeQueryHelper (s : State) (l r : Int) (node start end_ : Nat) : State × Int :=
  if _h1 : r < (start : Int) ∨ (end_ : Int) < l then (s, 0)
  else
    let s1 := push s node start end_
    if _h2 : l ≤ (start : Int) ∧ (end_ : Int) ≤ r then (s1, s1.tree node)
    else
      let mid := (start + end_) / 2
      let p1 := rangeQueryHelper s1 l r (2 * node + 1) start mid
      let p2 := rangeQueryHelper p1.1 l r (2 * node + 2) (mid + 1) end_
      (p2.1, p1.2 + p2.2)
termination_by end_ - start
decreasing_by
  · omega
  · omega

/-- Embedding of `LazySegmentTree.range_query` (lines 142–144); returns the
resulting state together with the queried sum. -/
def rangeQuery (s : State) (n : Nat) (l r : Int) : State × Int :=
  rangeQueryHelper s l r 0 0 (n - 1)

/-- Modelled from the spec (§4.5): the push-first query algorithm, in which
every visited node runs the push primitive BEFORE the outside/inside/partial
classification.  This is the algorithm the spec prescribes; it is compared
against the implemented `rangeQueryHelper`, which runs the outside test
first. -/
def rangeQueryHelperSpec (s : State) (l r : Int) (node start end_ : Nat) : State × Int :=
  let s1 := push s node start end_
  if _h1 : r < (start : Int) ∨ (end_ : Int) < l then (s1, 0)
  else if _h2 : l ≤ (start : Int) ∧ (end_ : Int) ≤ r then (s1, s1.tree node)
  else
    let mid := (start + end_) / 2
    let p1 := rangeQueryHelperSpec s1 l r (2 * node + 1) start mid
    let p2 := rangeQueryHelperSpec p1.1 l r (2 * node + 2) (mid + 1) end_
    (p2.1, p1.2 + p2.2)
termination_by end_ - start
decreasing_by
  · omega
  · omega

/-- Modelled from the spec (§4.5): the push-first form of `range_query`. -/
def rangeQuerySpec (s : State) (n : Nat) (l r : Int) : State × Int :=
  rangeQueryHelperSpec s l r 0 0 (n - 1)

/-- The logical value stored at leaf index `i` of the subtree rooted at
`node` covering `[start, end]`: the leaf's aggregate plus every pending
update on the path from `node` down to the leaf.  This is the denotation
observed by single-index queries. -/
def subDenote (s : State) (node start end_ i : Nat) : Int :=
  if start = end_ then s.tree node + s.lazy node
  else if _h : start < end_ then
    let mid := (start + end_) / 2
    s.lazy node +
      (if i ≤ mid then subDenote s (2 * node + 1) start mid i
       else subDenote s (2 * node + 2) (mid + 1) end_ i)
  else 0
termination_by end_ - start
decreasing_by
  · omega
  · omega

end LazySegmentTree

/-- Construction run on the empty array, with Python integer semantics.
`__init__` of either class with `n = 0` calls `build(arr, 0, 0, -1)`, so the
endpoints are `Int` and `mid = (start + end) // 2` is Python floor division
(`Int.fdiv`).  The recursion is given explicit fuel; returning `none` means
the call has not terminated within that bound.  The input array is never
read on this path, so it is modelled as a total function. -/
def buildZ (a : Int → Int) : Nat → (Nat → Int) → Nat → Int → Int → Option (Nat → Int)
  | 0, _, _, _, _ => none
  | fuel + 1, t, node, start, end_ =>
    if start = end_ then some (upd t node (a start))
    else
      let mid := Int.fdiv (start + end_) 2
      match buildZ a fuel t (2 * node + 1) start mid with
      | none => none
      | some t1 =>
        match buildZ a fuel t1 (2 * node + 2) (mid + 1) end_ with
        | none => none
        | some t2 => some (upd t2 node (t2 (2 * node + 1) + t2 (2 * node + 2)))

/-- Two lazy-tree states agree on every node of the subtree rooted at `k`. -/
def LazySegmentTree.agreeOn (s t : LazySegmentTree.State) (k : Nat) : Prop :=
  ∀ j, isDesc k j → s.tree j = t.tree j ∧ s.lazy j = t.lazy j

/-! ## Basic lemmas about the heap layout and pointwise stores -/

theorem upd_same (f : Nat → Int) (i : Nat) (v : Int) : upd f i v i = v := by
  simp [upd]

theorem upd_ne (f : Nat → Int) (i : Nat) (v : Int) {j : Nat} (h : j ≠ i) :
    upd f i v j = f j := by
  simp [upd, h]

theorem isDesc_le : ∀ j k, isDesc k j → k ≤ j := by
  intro j
  induction j using Nat.strong_induction_on with
  | _ j ih =>
    match j with
    | 0 => intro k h; simp only [isDesc] at h; omega
    | j' + 1 =>
      intro k h
      simp only [isDesc] at h
      rcases h with h | h
      · omega
      · have := ih (j' / 2) (by omega) k h
        omega

theorem isDesc_refl (k : Nat) : isDesc k k := by
  match k with
  | 0 => simp [isDesc]
  | k' + 1 => simp [isDesc]

theorem isDesc_child_left {k j : Nat} (h : isDesc k j) : isDesc k (2 * j + 1) := by
  have h2 : 2 * j + 1 = (2 * j) + 1 := rfl
  rw [h2]
  simp only [isDesc]
  right
  have h3 : (2 * j) / 2 = j := by omega
  rw [h3]
  exact h

theorem isDesc_child_right {k j : Nat} (h : isDesc k j) : isDesc k (2 * j + 2) := by
  have h2 : 2 * j + 2 = (2 * j + 1) + 1 := rfl
  rw [h2]
  simp only [isDesc]
  right
  have h3 : (2 * j + 1) / 2 = j := by omega
  rw [h3]
  exact h

theorem isDesc_up_left : ∀ j k, isDesc (2 * k + 1) j → isDesc k j := by
  intro j
  induction j using Nat.strong_induction_on with
  | _ j ih =>
    match j with
    | 0 => intro k h; simp only [isDesc] at h; omega
    | j' + 1 =>
      intro k h
      simp only [isDesc] at h ⊢
      rcases h with h | h
      · right
        have h3 : j' / 2 = k := by omega
        rw [h3]
        exact isDesc_refl k
      · right
        exact ih (j' / 2) (by omega) k h

theorem isDesc_up_right : ∀ j k, isDesc (2 * k + 2) j → isDesc k j := by
  intro j
  induction j using Nat.strong_induction_on with
  | _ j ih =>
    match j with
    | 0 => intro k h; simp only [isDesc] at h; omega
    | j' + 1 =>
      intro k h
      simp only [isDesc] at h ⊢
      rcases h with h | h
      · right
        have h3 : j' / 2 = k := by omega
        rw [h3]
        exact isDesc_refl k
      · right
        exact ih (j' / 2) (by omega) k h

theorem isDesc_sibling : ∀ j k, isDesc (2 * k + 1) j → isDesc (2 * k + 2) j → False := by
  intro j
  induction j using Nat.strong_induction_on with
  | _ j ih =>
    match j with
    | 0 => intro k h1 _; simp only [isDesc] at h1; omega
    | j' + 1 =>
      intro k h1 h2
      simp only [isDesc] at h1 h2
      rcases h1 with h1 | h1 <;> rcases h2 with h2 | h2
      · omega
      · have h3 : j' / 2 = k := by omega
        rw [h3] at h2
        have := isDesc_le k (2 * k + 2) h2
        omega
      · have h3 : j' / 2 = k := by omega
        rw [h3] at h1
        have := isDesc_le k (2 * k + 1) h1
        omega
      · exact ih (j' / 2) (by omega) k h1 h2

theorem not_isDesc_left_self (k : Nat) : ¬ isDesc (2 * k + 1) k := by
  intro h
  have := isDesc_le k (2 * k + 1) h
  omega

theorem not_isDesc_right_self (k : Nat) : ¬ isDesc (2 * k + 2) k := by
  intro h
  have := isDesc_le k (2 * k + 2) h
  omega

theorem sum_Icc_split (a : Nat → Int) (start mid end_ : Nat) (h1 : start ≤ mid)
    (h2 : mid < end_) :
    Finset.sum (Finset.Icc start end_) a
      = Finset.sum (Finset.Icc start mid) a + Finset.sum (Finset.Icc (mid + 1) end_) a := by
  have hd : Disjoint (Finset.Icc start mid) (Finset.Icc (mid + 1) end_) := by
    rw [Finset.disjoint_left]
    intro x hx hy
    simp only [Finset.mem_Icc] at hx hy
    omega
  have hu : Finset.Icc start end_ = Finset.Icc start mid ∪ Finset.Icc (mid + 1) end_ := by
    ext x
    simp only [Finset.mem_Icc, Finset.mem_union]
    omega
  rw [hu, Finset.sum_union hd]

/-! ## Lemmas about the eager tree -/

theorem buildHelper_frame : ∀ (fuel node start end_ : Nat), end_ - start ≤ fuel →
    ∀ (a t : Nat → Int) (j : Nat), ¬ isDesc node j →
      buildHelper a t node start end_ j = t j := by
  intro fuel
  induction fuel with
  | zero =>
    intro node start end_ hf a t j hj
    rw [buildHelper]
    split_ifs with h1 h2
    · exact upd_ne t node (a start) (fun hc => hj (by rw [hc]; exact isDesc_refl node))
    · exfalso; omega
    · rfl
  | succ fuel ih =>
    intro node start end_ hf a t j hj
    rw [buildHelper]
    split_ifs with h1 h2
    · exact upd_ne t node (a start) (fun hc => hj (by rw [hc]; exact isDesc_refl node))
    · dsimp only
      have hjL : ¬ isDesc (2 * node + 1) j := fun hd => hj (isDesc_up_left j node hd)
      have hjR : ¬ isDesc (2 * node + 2) j := fun hd => hj (isDesc_up_right j node hd)
      have hjn : j ≠ node := fun hc => hj (by rw [hc]; exact isDesc_refl node)
      rw [upd_ne _ _ _ hjn]
      rw [ih (2 * node + 2) ((start + end_) / 2 + 1) end_ (by omega) a _ j hjR]
      exact ih (2 * node + 1) start ((start + end_) / 2) (by omega) a t j hjL
    · rfl

theorem eagerInv_congr : ∀ (fuel node start end_ : Nat), end_ - start ≤ fuel →
    ∀ (t t' a a' : Nat → Int),
      (∀ j, isDesc node j → t j = t' j) →
      (∀ i, start ≤ i → i ≤ end_ → a i = a' i) →
      eagerInv t a node start end_ → eagerInv t' a' node start end_ := by
  intro fuel
  induction fuel with
  | zero =>
    intro node start end_ hf t t' a a' ht ha h
    rw [eagerInv] at h ⊢
    split_ifs at h ⊢ with h1 h2
    · rw [← ht node (isDesc_refl node), ← ha start (le_refl start) (by omega)]
      exact h
    · exfalso; omega
  | succ fuel ih =>
    intro node start end_ hf t t' a a' ht ha h
    rw [eagerInv] at h ⊢
    split_ifs at h ⊢ with h1 h2
    · rw [← ht node (isDesc_refl node), ← ha start (le_refl start) (by omega)]
      exact h
    · dsimp only at h ⊢
      obtain ⟨heq, hL, hR⟩ := h
      refine ⟨?_, ?_, ?_⟩
      · rw [← ht node (isDesc_refl node),
          ← ht (2 * node + 1) (isDesc_child_left (isDesc_refl node)),
          ← ht (2 * node + 2) (isDesc_child_right (isDesc_refl node))]
        exact heq
      · exact ih (2 * node + 1) start ((start + end_) / 2) (by omega) t t' a a'
          (fun j hj => ht j (isDesc_up_left j node hj))
          (fun i hi1 hi2 => ha i hi1 (by omega)) hL
      · exact ih (2 * node + 2) ((start + end_) / 2 + 1) end_ (by omega) t t' a a'
          (fun j hj => ht j (isDesc_up_right j node hj))
          (fun i hi1 hi2 => ha i (by omega) hi2) hR

theorem buildHelper_eagerInv : ∀ (fuel node start end_ : Nat), end_ - start ≤ fuel →
    start ≤ end_ → ∀ (a t : Nat → Int),
      eagerInv (buildHelper a t node start end_) a node start end_ := by
  intro fuel
  induction fuel with
  | zero =>
    intro node start end_ hf hse a t
    have h1 : start = end_ := by omega
    subst h1
    rw [buildHelper, eagerInv]
    simp [upd]
  | succ fuel ih =>
    intro node start end_ hf hse a t
    rw [buildHelper, eagerInv]
    split_ifs with h1 h2
    · exact upd_same t node (a start)
    · dsimp only
      have hmid1 : (start + end_) / 2 - start ≤ fuel := by omega
      have hmid2 : end_ - ((start + end_) / 2 + 1) ≤ fuel := by omega
      have hLne : (2 * node + 1 : Nat) ≠ node := by omega
      have hRne : (2 * node + 2 : Nat) ≠ node := by omega
      refine ⟨?_, ?_, ?_⟩
      · rw [upd_same, upd_ne _ _ _ hLne, upd_ne _ _ _ hRne]
      · have hbase := ih (2 * node + 1) start ((start + end_) / 2) hmid1 (by omega) a t
        refine eagerInv_congr fuel (2 * node + 1) start ((start + end_) / 2) hmid1
          _ _ a a ?_ (fun _ _ _ => rfl) hbase
        intro j hj
        have hjn : j ≠ node := by
          have := isDesc_le j (2 * node + 1) hj
          omega
        have hjR : ¬ isDesc (2 * node + 2) j := fun hd => isDesc_sibling j node hj hd
        rw [upd_ne _ _ _ hjn,
          buildHelper_frame fuel (2 * node + 2) ((start + end_) / 2 + 1) end_ hmid2 a _ j hjR]
      · have hbase := ih (2 * node + 2) ((start + end_) / 2 + 1) end_ hmid2 (by omega) a
          (buildHelper a t (2 * node + 1) start ((start + end_) / 2))
        refine eagerInv_congr fuel (2 * node + 2) ((start + end_) / 2 + 1) end_ hmid2
          _ _ a a ?_ (fun _ _ _ => rfl) hbase
        intro j hj
        have hjn : j ≠ node := by
          have := isDesc_le j (2 * node + 2) hj
          omega
        rw [upd_ne _ _ _ hjn]

theorem eagerInv_sum : ∀ (fuel node start end_ : Nat), end_ - start ≤ fuel →
    start ≤ end_ → ∀ (t a : Nat → Int), eagerInv t a node start end_ →
      t node = Finset.sum (Finset.Icc start end_) a := by
  intro fuel
  induction fuel with
  | zero =>
    intro node start end_ hf hse t a h
    have h1 : start = end_ := by omega
    subst h1
    rw [eagerInv] at h
    simp only [if_pos rfl] at h
    rw [Finset.Icc_self, Finset.sum_singleton]
    exact h
  | succ fuel ih =>
    intro node start end_ hf hse t a h
    rw [eagerInv] at h
    split_ifs at h with h1 h2
    · subst h1
      rw [Finset.Icc_self, Finset.sum_singleton]
      exact h
    · dsimp only at h
      obtain ⟨heq, hL, hR⟩ := h
      rw [heq,
        ih (2 * node + 1) start ((start + end_) / 2) (by omega) (by omega) t a hL,
        ih (2 * node + 2) ((start + end_) / 2 + 1) end_ (by omega) (by omega) t a hR,
        ← sum_Icc_split a start ((start + end_) / 2) end_ (by omega) (by omega)]
    · exfalso; omega

theorem clampIdx_mem (idx : Int) (start end_ : Nat) (h : start ≤ end_) :
    start ≤ clampIdx idx start end_ ∧ clampIdx idx start end_ ≤ end_ := by
  simp only [clampIdx]
  split_ifs <;> omega

theorem clampIdx_leaf (idx : Int) (start : Nat) : clampIdx idx start start = start := by
  simp only [clampIdx]
  split_ifs <;> omega

theorem clampIdx_left (idx : Int) (start mid end_ : Nat) (h1 : start ≤ mid) (h2 : mid ≤ end_)
    (hidx : idx ≤ (mid : Int)) : clampIdx idx start end_ = clampIdx idx start mid := by
  simp only [clampIdx]
  split_ifs <;> omega

theorem clampIdx_right (idx : Int) (start mid end_ : Nat) (h1 : start ≤ mid) (h2 : mid < end_)
    (hidx : (mid : Int) < idx) : clampIdx idx start end_ = clampIdx idx (mid + 1) end_ := by
  simp only [clampIdx]
  split_ifs <;> omega

theorem updateHelper_frame : ∀ (fuel node start end_ : Nat), end_ - start ≤ fuel →
    ∀ (t : Nat → Int) (idx val : Int) (j : Nat), ¬ isDesc node j →
      SegmentTree.updateHelper t idx val node start end_ j = t j := by
  intro fuel
  induction fuel with
  | zero =>
    intro node start end_ hf t idx val j hj
    rw [SegmentTree.updateHelper]
    split_ifs with h1 h2
    · exact upd_ne t node val (fun hc => hj (by rw [hc]; exact isDesc_refl node))
    · exfalso; omega
    · rfl
  | succ fuel ih =>
    intro node start end_ hf t idx val j hj
    rw [SegmentTree.updateHelper]
    split_ifs with h1 h2
    · exact upd_ne t node val (fun hc => hj (by rw [hc]; exact isDesc_refl node))
    · dsimp only
      have hjL : ¬ isDesc (2 * node + 1) j := fun hd => hj (isDesc_up_left j node hd)
      have hjR : ¬ isDesc (2 * node + 2) j := fun hd => hj (isDesc_up_right j node hd)
      have hjn : j ≠ node := fun hc => hj (by rw [hc]; exact isDesc_refl node)
      rw [upd_ne _ _ _ hjn]
      split_ifs with hc
      · exact ih (2 * node + 1) start ((start + end_) / 2) (by omega) t idx val j hjL
      · exact ih (2 * node + 2) ((start + end_) / 2 + 1) end_ (by omega) t idx val j hjR
    · rfl

theorem updateHelper_eagerInv : ∀ (fuel node start end_ : Nat), end_ - start ≤ fuel →
    start ≤ end_ → ∀ (t a : Nat → Int) (idx val : Int),
      eagerInv t a node start end_ →
      eagerInv (SegmentTree.updateHelper t idx val node start end_)
        (upd a (clampIdx idx start end_) val) node start end_ := by
  intro fuel
  induction fuel with
  | zero =>
    intro node start end_ hf hse t a idx val h
    have h1 : start = end_ := by omega
    have hcl : clampIdx idx start end_ = start := by rw [← h1]; exact clampIdx_leaf idx start
    rw [SegmentTree.updateHelper, eagerInv]
    simp only [if_pos h1]
    rw [upd_same, hcl, upd_same]
  | succ fuel ih =>
    intro node start end_ hf hse t a idx val h
    rw [eagerInv] at h
    rw [SegmentTree.updateHelper, eagerInv]
    by_cases h1 : start = end_
    · have hcl : clampIdx idx start end_ = start := by rw [← h1]; exact clampIdx_leaf idx start
      simp only [if_pos h1]
      rw [upd_same, hcl, upd_same]
    · have hlt : start < end_ := by omega
      simp only [if_neg h1, dif_pos hlt] at h ⊢
      obtain ⟨heq, hL, hR⟩ := h
      have hmid1 : (start + end_) / 2 - start ≤ fuel := by omega
      have hmid2 : end_ - ((start + end_) / 2 + 1) ≤ fuel := by omega
      have hLne : (2 * node + 1 : Nat) ≠ node := by omega
      have hRne : (2 * node + 2 : Nat) ≠ node := by omega
      by_cases hc : idx ≤ (((start + end_) / 2 : Nat) : Int)
      · simp only [if_pos hc]
        have hclamp := clampIdx_left idx start ((start + end_) / 2) end_ (by omega) (by omega) hc
        have hcm := clampIdx_mem idx start ((start + end_) / 2) (by omega)
        refine ⟨?_, ?_, ?_⟩
        · rw [upd_same, upd_ne _ _ _ hLne, upd_ne _ _ _ hRne]
        · have hbase := ih (2 * node + 1) start ((start + end_) / 2) hmid1 (by omega)
            t a idx val hL
          rw [← hclamp] at hbase
          refine eagerInv_congr fuel (2 * node + 1) start ((start + end_) / 2) hmid1
            _ _ _ _ ?_ (fun _ _ _ => rfl) hbase
          intro j hj
          have hjn : j ≠ node := by
            have := isDesc_le j (2 * node + 1) hj
            omega
          rw [upd_ne _ _ _ hjn]
        · refine eagerInv_congr fuel (2 * node + 2) ((start + end_) / 2 + 1) end_ hmid2
            _ _ a _ ?_ ?_ hR
          · intro j hj
            have hjn : j ≠ node := by
              have := isDesc_le j (2 * node + 2) hj
              omega
            have hjL : ¬ isDesc (2 * node + 1) j := fun hd => isDesc_sibling j node hd hj
            rw [upd_ne _ _ _ hjn,
              updateHelper_frame fuel (2 * node + 1) start ((start + end_) / 2) hmid1
                t idx val j hjL]
          · intro i hi1 hi2
            rw [upd_ne a _ val (by rw [hclamp]; omega)]
      · simp only [if_neg hc]
        have hclamp := clampIdx_right idx start ((start + end_) / 2) end_ (by omega) (by omega)
          (by omega)
        have hcm := clampIdx_mem idx ((start + end_) / 2 + 1) end_ (by omega)
        refine ⟨?_, ?_, ?_⟩
        · rw [upd_same, upd_ne _ _ _ hLne, upd_ne _ _ _ hRne]
        · refine eagerInv_congr fuel (2 * node + 1) start ((start + end_) / 2) hmid1
            _ _ a _ ?_ ?_ hL
          · intro j hj
            have hjn : j ≠ node := by
              have := isDesc_le j (2 * node + 1) hj
              omega
            have hjR : ¬ isDesc (2 * node + 2) j := fun hd => isDesc_sibling j node hj hd
            rw [upd_ne _ _ _ hjn,
              updateHelper_frame fuel (2 * node + 2) ((start + end_) / 2 + 1) end_ hmid2
                t idx val j hjR]
          · intro i hi1 hi2
            rw [upd_ne a _ val (by rw [hclamp]; omega)]
        · have hbase := ih (2 * node + 2) ((start + end_) / 2 + 1) end_ hmid2 (by omega)
            t a idx val hR
          rw [← hclamp] at hbase
          refine eagerInv_congr fuel (2 * node + 2) ((start + end_) / 2 + 1) end_ hmid2
            _ _ _ _ ?_ (fun _ _ _ => rfl) hbase
          intro j hj
          have hjn : j ≠ node := by
            have := isDesc_le j (2 * node + 2) hj
            omega
          rw [upd_ne _ _ _ hjn]

theorem queryHelper_outside (t : Nat → Int) (l r : Int) (node start end_ : Nat)
    (h : r < (start : Int) ∨ (end_ : Int) < l) :
    SegmentTree.queryHelper t l r node start end_ = 0 := by
  rw [SegmentTree.queryHelper, dif_pos h]

theorem queryHelper_single : ∀ (fuel node start end_ : Nat), end_ - start ≤ fuel →
    ∀ (t a : Nat → Int) (i : Nat), start ≤ i → i ≤ end_ →
      eagerInv t a node start end_ →
      SegmentTree.queryHelper t (i : Int) (i : Int) node start end_ = a i := by
  intro fuel
  induction fuel with
  | zero =>
    intro node start end_ hf t a i hi1 hi2 h
    have h1 : start = end_ := by omega
    subst h1
    have h2 : i = start := by omega
    subst h2
    rw [eagerInv] at h
    simp only [if_pos rfl] at h
    rw [SegmentTree.queryHelper]
    split_ifs with g1 g2
    · exfalso; omega
    · exact h
    · exfalso; omega
  | succ fuel ih =>
    intro node start end_ hf t a i hi1 hi2 h
    by_cases hse : start = end_
    · subst hse
      have h2 : i = start := by omega
      subst h2
      rw [eagerInv] at h
      simp only [if_pos rfl] at h
      rw [SegmentTree.queryHelper]
      split_ifs with g1 g2
      · exfalso; omega
      · exact h
      · exfalso; omega
    · have hlt : start < end_ := by omega
      rw [eagerInv] at h
      rw [if_neg hse, dif_pos hlt] at h
      dsimp only at h
      obtain ⟨heq, hL, hR⟩ := h
      rw [SegmentTree.queryHelper]
      split_ifs with g1 g2
      · exfalso; omega
      · exfalso; omega
      · dsimp only
        by_cases him : i ≤ (start + end_) / 2
        · have hqR : SegmentTree.queryHelper t (i : Int) (i : Int) (2 * node + 2)
              ((start + end_) / 2 + 1) end_ = 0 :=
            queryHelper_outside t _ _ _ _ _ (Or.inl (by omega))
          rw [hqR, add_zero]
          exact ih (2 * node + 1) start ((start + end_) / 2) (by omega) t a i hi1 him hL
        · have hqL : SegmentTree.queryHelper t (i : Int) (i : Int) (2 * node + 1)
              start ((start + end_) / 2) = 0 :=
            queryHelper_outside t _ _ _ _ _ (Or.inr (by omega))
          rw [hqL, zero_add]
          exact ih (2 * node + 2) ((start + end_) / 2 + 1) end_ (by omega) t a i
            (by omega) hi2 hR

theorem queryHelper_empty : ∀ (fuel node start end_ : Nat), end_ - start ≤ fuel →
    ∀ (t : Nat → Int) (l r : Int), (r < l ∨ r < (start : Int) ∨ (end_ : Int) < l) →
      SegmentTree.queryHelper t l r node start end_ = 0 := by
  intro fuel
  induction fuel with
  | zero =>
    intro node start end_ hf t l r hemp
    rw [SegmentTree.queryHelper]
    split_ifs with h1 h2
    · rfl
    · exfalso; omega
    · exfalso; omega
  | succ fuel ih =>
    intro node start end_ hf t l r hemp
    rw [SegmentTree.queryHelper]
    split_ifs with h1 h2
    · rfl
    · exfalso; omega
    · dsimp only
      rw [ih (2 * node + 1) start ((start + end_) / 2) (by omega) t l r (by omega),
        ih (2 * node + 2) ((start + end_) / 2 + 1) end_ (by omega) t l r (by omega),
        add_zero]

/-! ## Lemmas about the lazy tree: the push primitive -/

namespace LazySegmentTree

theorem upd_apply (f : Nat → Int) (i : Nat) (v : Int) (j : Nat) :
    upd f i v j = if j = i then v else f j := rfl

theorem push_tree_apply (s : State) (node start end_ j : Nat) :
    (push s node start end_).tree j =
      if j = node ∧ s.lazy node ≠ 0 then
        s.tree node + ((end_ : Int) - (start : Int) + 1) * s.lazy node
      else s.tree j := by
  by_cases hz : s.lazy node = 0
  · rw [push, if_neg (not_not_intro hz), if_neg (fun c => c.2 hz)]
  · rw [push, if_pos hz]
    dsimp only
    by_cases hjn : j = node
    · subst hjn
      rw [upd_same, if_pos ⟨rfl, hz⟩]
    · rw [upd_apply, if_neg hjn, if_neg (fun c => hjn c.1)]

theorem push_lazy_apply (s : State) (node start end_ j : Nat) :
    (push s node start end_).lazy j =
      if s.lazy node = 0 then s.lazy j
      else if j = node then 0
      else if start ≠ end_ ∧ (j = 2 * node + 1 ∨ j = 2 * node + 2) then
        s.lazy j + s.lazy node
      else s.lazy j := by
  by_cases hz : s.lazy node = 0
  · rw [push, if_neg (not_not_intro hz), if_pos hz]
  · rw [push, if_pos hz, if_neg hz]
    dsimp only
    by_cases hjn : j = node
    · subst hjn
      rw [upd_same, if_pos rfl]
    · rw [upd_apply, if_neg hjn, if_neg hjn]
      by_cases hse : start ≠ end_
      · rw [if_pos hse]
        by_cases hjR : j = 2 * node + 2
        · subst hjR
          rw [upd_same, if_pos ⟨hse, Or.inr rfl⟩]
        · rw [upd_apply, if_neg hjR]
          by_cases hjL : j = 2 * node + 1
          · subst hjL
            rw [upd_same, if_pos ⟨hse, Or.inl rfl⟩]
          · rw [upd_apply, if_neg hjL,
              if_neg (fun c => c.2.elim (fun h => hjL h) (fun h => hjR h))]
      · rw [if_neg hse, if_neg (fun c => hse c.1)]

theorem push_lazy_node (s : State) (node start end_ : Nat) :
    (push s node start end_).lazy node = 0 := by
  rw [push_lazy_apply]
  split_ifs with hz hn
  · exact hz
  · rfl
  · exact absurd rfl hn
  · exact absurd rfl hn

theorem push_zero (s : State) (node start end_ : Nat) (h : s.lazy node = 0) :
    push s node start end_ = s := by
  rw [push, if_neg (not_not_intro h)]

theorem push_frame (s : State) (node start end_ j : Nat) (h1 : j ≠ node)
    (h2 : j ≠ 2 * node + 1) (h3 : j ≠ 2 * node + 2) :
    (push s node start end_).tree j = s.tree j ∧
      (push s node start end_).lazy j = s.lazy j := by
  constructor
  · rw [push_tree_apply, if_neg (fun c => h1 c.1)]
  · rw [push_lazy_apply]
    split_ifs with hz hc
    · rfl
    · exact absurd hc.2 (fun hor => hor.elim (fun h => h2 h) (fun h => h3 h))
    · rfl

theorem push_frame_off (s : State) (node start end_ j : Nat) (hj : ¬ isDesc node j) :
    (push s node start end_).tree j = s.tree j ∧
      (push s node start end_).lazy j = s.lazy j := by
  refine push_frame s node start end_ j ?_ ?_ ?_
  · exact fun hc => hj (by rw [hc]; exact isDesc_refl node)
  · exact fun hc => hj (by rw [hc]; exact isDesc_child_left (isDesc_refl node))
  · exact fun hc => hj (by rw [hc]; exact isDesc_child_right (isDesc_refl node))

theorem push_agree {s s' : State} (node start end_ : Nat) (hag : agreeOn s s' node) :
    agreeOn (push s node start end_) (push s' node start end_) node := by
  intro j hj
  have hn := hag node (isDesc_refl node)
  constructor
  · rw [push_tree_apply, push_tree_apply, ← hn.2, ← hn.1, (hag j hj).1]
  · rw [push_lazy_apply, push_lazy_apply, ← hn.2, (hag j hj).2]

end LazySegmentTree

namespace LazySegmentTree

theorem subDenote_congr : ∀ (fuel node start end_ : Nat), end_ - start ≤ fuel →
    ∀ (s s' : State) (i : Nat), agreeOn s s' node →
      subDenote s node start end_ i = subDenote s' node start end_ i := by
  intro fuel
  induction fuel with
  | zero =>
    intro node start end_ hf s s' i hag
    rw [subDenote, subDenote]
    split_ifs with h1 h2
    · have hn := hag node (isDesc_refl node)
      rw [hn.1, hn.2]
    · exfalso; omega
    · rfl
  | succ fuel ih =>
    intro node start end_ hf s s' i hag
    rw [subDenote, subDenote]
    split_ifs with h1 h2
    · have hn := hag node (isDesc_refl node)
      rw [hn.1, hn.2]
    · have hn := hag node (isDesc_refl node)
      rw [hn.2]
      dsimp only
      have hagL : agreeOn s s' (2 * node + 1) :=
        fun j hj => hag j (isDesc_up_left j node hj)
      have hagR : agreeOn s s' (2 * node + 2) :=
        fun j hj => hag j (isDesc_up_right j node hj)
      by_cases him : i ≤ (start + end_) / 2
      · rw [if_pos him, if_pos him,
          ih (2 * node + 1) start ((start + end_) / 2) (by omega) s s' i hagL]
      · rw [if_neg him, if_neg him,
          ih (2 * node + 2) ((start + end_) / 2 + 1) end_ (by omega) s s' i hagR]
    · rfl

theorem subDenote_addLazy (s : State) (node start end_ i : Nat) (v : Int)
    (hse : start ≤ end_) :
    subDenote { s with lazy := upd s.lazy node (s.lazy node + v) } node start end_ i
      = subDenote s node start end_ i + v := by
  rw [subDenote, subDenote]
  split_ifs with h1 h2
  · dsimp only
    rw [upd_same]
    ring
  · dsimp only
    rw [upd_same]
    have hagL : agreeOn { s with lazy := upd s.lazy node (s.lazy node + v) } s (2 * node + 1) := by
      intro j hj
      have hjn : j ≠ node := by
        have := isDesc_le j (2 * node + 1) hj
        omega
      exact ⟨rfl, upd_ne _ _ _ hjn⟩
    have hagR : agreeOn { s with lazy := upd s.lazy node (s.lazy node + v) } s (2 * node + 2) := by
      intro j hj
      have hjn : j ≠ node := by
        have := isDesc_le j (2 * node + 2) hj
        omega
      exact ⟨rfl, upd_ne _ _ _ hjn⟩
    by_cases him : i ≤ (start + end_) / 2
    · rw [if_pos him, if_pos him,
        subDenote_congr ((start + end_) / 2 - start) (2 * node + 1) start ((start + end_) / 2)
          (by omega) _ s i hagL]
      ring
    · rw [if_neg him, if_neg him,
        subDenote_congr (end_ - ((start + end_) / 2 + 1)) (2 * node + 2)
          ((start + end_) / 2 + 1) end_ (by omega) _ s i hagR]
      ring
  · exfalso; omega

theorem push_subDenote (s : State) (node start end_ i : Nat) (hse : start ≤ end_) :
    subDenote (push s node start end_) node start end_ i
      = subDenote s node start end_ i := by
  by_cases hz : s.lazy node = 0
  · rw [push_zero s node start end_ hz]
  · by_cases h1 : start = end_
    · subst h1
      rw [subDenote, subDenote]
      simp only [eq_self_iff_true, if_true]
      rw [push_tree_apply, if_pos ⟨rfl, hz⟩, push_lazy_node]
      ring
    · have hlt : start < end_ := by omega
      rw [subDenote, subDenote]
      simp only [if_neg h1, dif_pos hlt]
      rw [push_lazy_node]
      by_cases him : i ≤ (start + end_) / 2
      · rw [if_pos him, if_pos him]
        have hag : agreeOn (push s node start end_)
            { s with lazy := upd s.lazy (2 * node + 1) (s.lazy (2 * node + 1) + s.lazy node) }
            (2 * node + 1) := by
          intro j hj
          have hjn : j ≠ node := by
            have := isDesc_le j (2 * node + 1) hj
            omega
          have hjR : j ≠ 2 * node + 2 := by
            intro hc
            exact isDesc_sibling j node (hc ▸ hj) (hc ▸ isDesc_refl (2 * node + 2))
          refine ⟨?_, ?_⟩
          · dsimp only
            rw [push_tree_apply, if_neg (fun c => hjn c.1)]
          · dsimp only
            rw [push_lazy_apply, if_neg hz, if_neg hjn]
            by_cases hjL : j = 2 * node + 1
            · subst hjL
              rw [if_pos ⟨h1, Or.inl rfl⟩, upd_same]
            · rw [if_neg (fun c => c.2.elim (fun h => hjL h) (fun h => hjR h)),
                upd_ne _ _ _ hjL]
        rw [subDenote_congr ((start + end_) / 2 - start) (2 * node + 1) start
            ((start + end_) / 2) (by omega) _ _ i hag,
          subDenote_addLazy s (2 * node + 1) start ((start + end_) / 2) i (s.lazy node)
            (by omega)]
        ring
      · rw [if_neg him, if_neg him]
        have hag : agreeOn (push s node start end_)
            { s with lazy := upd s.lazy (2 * node + 2) (s.lazy (2 * node + 2) + s.lazy node) }
            (2 * node + 2) := by
          intro j hj
          have hjn : j ≠ node := by
            have := isDesc_le j (2 * node + 2) hj
            omega
          have hjL : j ≠ 2 * node + 1 := by
            intro hc
            exact isDesc_sibling j node (hc ▸ isDesc_refl (2 * node + 1)) (hc ▸ hj)
          refine ⟨?_, ?_⟩
          · dsimp only
            rw [push_tree_apply, if_neg (fun c => hjn c.1)]
          · dsimp only
            rw [push_lazy_apply, if_neg hz, if_neg hjn]
            by_cases hjR : j = 2 * node + 2
            · subst hjR
              rw [if_pos ⟨h1, Or.inr rfl⟩, upd_same]
            · rw [if_neg (fun c => c.2.elim (fun h => hjL h) (fun h => hjR h)),
                upd_ne _ _ _ hjR]
        rw [subDenote_congr (end_ - ((start + end_) / 2 + 1)) (2 * node + 2)
            ((start + end_) / 2 + 1) end_ (by omega) _ _ i hag,
          subDenote_addLazy s (2 * node + 2) ((start + end_) / 2 + 1) end_ i (s.lazy node)
            (by omega)]
        ring

end LazySegmentTree

namespace LazySegmentTree

theorem subDenote_child_left (s : State) (node start end_ i : Nat) (hlt : start < end_)
    (hz : s.lazy node = 0) (him : i ≤ (start + end_) / 2) :
    subDenote s node start end_ i
      = subDenote s (2 * node + 1) start ((start + end_) / 2) i := by
  rw [subDenote, if_neg (by omega), dif_pos hlt]
  dsimp only
  rw [if_pos him, hz, zero_add]

theorem subDenote_child_right (s : State) (node start end_ i : Nat) (hlt : start < end_)
    (hz : s.lazy node = 0) (him : ¬ i ≤ (start + end_) / 2) :
    subDenote s node start end_ i
      = subDenote s (2 * node + 2) ((start + end_) / 2 + 1) end_ i := by
  rw [subDenote, if_neg (by omega), dif_pos hlt]
  dsimp only
  rw [if_neg him, hz, zero_add]

theorem rangeUpdateHelper_frame : ∀ (fuel node start end_ : Nat), end_ - start ≤ fuel →
    ∀ (s : State) (l r v : Int) (j : Nat), ¬ isDesc node j →
      (rangeUpdateHelper s l r v node start end_).tree j = s.tree j ∧
        (rangeUpdateHelper s l r v node start end_).lazy j = s.lazy j := by
  intro fuel
  induction fuel with
  | zero =>
    intro node start end_ hf s l r v j hj
    rw [rangeUpdateHelper]
    dsimp only
    split_ifs with h1 h2
    · exact push_frame_off s node start end_ j hj
    · have hp1 := push_frame_off s node start end_ j hj
      have hjn : j ≠ node := fun hc => hj (by rw [hc]; exact isDesc_refl node)
      have hp2 := push_frame_off
        { push s node start end_ with
          lazy := upd (push s node start end_).lazy node
            ((push s node start end_).lazy node + v) } node start end_ j hj
      refine ⟨?_, ?_⟩
      · rw [hp2.1]
        exact hp1.1
      · rw [hp2.2]
        dsimp only
        rw [upd_ne _ _ _ hjn]
        exact hp1.2
    · exfalso; omega
  | succ fuel ih =>
    intro node start end_ hf s l r v j hj
    rw [rangeUpdateHelper]
    dsimp only
    split_ifs with h1 h2
    · exact push_frame_off s node start end_ j hj
    · have hp1 := push_frame_off s node start end_ j hj
      have hjn : j ≠ node := fun hc => hj (by rw [hc]; exact isDesc_refl node)
      have hp2 := push_frame_off
        { push s node start end_ with
          lazy := upd (push s node start end_).lazy node
            ((push s node start end_).lazy node + v) } node start end_ j hj
      refine ⟨?_, ?_⟩
      · rw [hp2.1]
        exact hp1.1
      · rw [hp2.2]
        dsimp only
        rw [upd_ne _ _ _ hjn]
        exact hp1.2
    · have hjn : j ≠ node := fun hc => hj (by rw [hc]; exact isDesc_refl node)
      have hjL : ¬ isDesc (2 * node + 1) j := fun hd => hj (isDesc_up_left j node hd)
      have hjR : ¬ isDesc (2 * node + 2) j := fun hd => hj (isDesc_up_right j node hd)
      have hp1 := push_frame_off s node start end_ j hj
      have h2f := ih (2 * node + 1) start ((start + end_) / 2) (by omega)
        (push s node start end_) l r v j hjL
      have h3f := ih (2 * node + 2) ((start + end_) / 2 + 1) end_ (by omega)
        (rangeUpdateHelper (push s node start end_) l r v (2 * node + 1) start
          ((start + end_) / 2)) l r v j hjR
      refine ⟨?_, ?_⟩
      · dsimp only
        rw [upd_ne _ _ _ hjn, h3f.1, h2f.1, hp1.1]
      · dsimp only
        rw [h3f.2, h2f.2, hp1.2]

theorem rangeUpdateHelper_lazy_node (s : State) (l r v : Int) (node start end_ : Nat) :
    (rangeUpdateHelper s l r v node start end_).lazy node = 0 := by
  rw [rangeUpdateHelper]
  dsimp only
  split_ifs with h1 h2
  · exact push_lazy_node s node start end_
  · exact push_lazy_node _ node start end_
  · have hz1 : (push s node start end_).lazy node = 0 := push_lazy_node s node start end_
    have h2f := rangeUpdateHelper_frame ((start + end_) / 2 - start) (2 * node + 1) start
      ((start + end_) / 2) (by omega) (push s node start end_) l r v node
      (not_isDesc_left_self node)
    have h3f := rangeUpdateHelper_frame (end_ - ((start + end_) / 2 + 1)) (2 * node + 2)
      ((start + end_) / 2 + 1) end_ (by omega)
      (rangeUpdateHelper (push s node start end_) l r v (2 * node + 1) start
        ((start + end_) / 2)) l r v node (not_isDesc_right_self node)
    dsimp only
    rw [h3f.2, h2f.2, hz1]

theorem rangeUpdateHelper_subDenote : ∀ (fuel node start end_ : Nat), end_ - start ≤ fuel →
    ∀ (s : State) (l r v : Int) (i : Nat), start ≤ i → i ≤ end_ →
      subDenote (rangeUpdateHelper s l r v node start end_) node start end_ i
        = subDenote s node start end_ i +
            (if l ≤ (i : Int) ∧ (i : Int) ≤ r then v else 0) := by
  intro fuel
  induction fuel with
  | zero =>
    intro node start end_ hf s l r v i hi1 hi2
    rw [rangeUpdateHelper]
    dsimp only
    by_cases h1 : r < (start : Int) ∨ (end_ : Int) < l
    · rw [dif_pos h1, if_neg (show ¬ (l ≤ (i : Int) ∧ (i : Int) ≤ r) by omega), add_zero]
      exact push_subDenote s node start end_ i (by omega)
    · rw [dif_neg h1]
      by_cases h2 : l ≤ (start : Int) ∧ (end_ : Int) ≤ r
      · rw [dif_pos h2, if_pos (show l ≤ (i : Int) ∧ (i : Int) ≤ r by omega)]
        rw [push_subDenote _ node start end_ i (by omega),
          subDenote_addLazy (push s node start end_) node start end_ i v (by omega),
          push_subDenote s node start end_ i (by omega)]
      · exfalso; omega
  | succ fuel ih =>
    intro node start end_ hf s l r v i hi1 hi2
    rw [rangeUpdateHelper]
    dsimp only
    by_cases h1 : r < (start : Int) ∨ (end_ : Int) < l
    · rw [dif_pos h1, if_neg (show ¬ (l ≤ (i : Int) ∧ (i : Int) ≤ r) by omega), add_zero]
      exact push_subDenote s node start end_ i (by omega)
    · rw [dif_neg h1]
      by_cases h2 : l ≤ (start : Int) ∧ (end_ : Int) ≤ r
      · rw [dif_pos h2, if_pos (show l ≤ (i : Int) ∧ (i : Int) ≤ r by omega)]
        rw [push_subDenote _ node start end_ i (by omega),
          subDenote_addLazy (push s node start end_) node start end_ i v (by omega),
          push_subDenote s node start end_ i (by omega)]
      · rw [dif_neg h2]
        have hlt : start < end_ := by omega
        have hz1 : (push s node start end_).lazy node = 0 := push_lazy_node s node start end_
        have h2f := rangeUpdateHelper_frame ((start + end_) / 2 - start) (2 * node + 1) start
          ((start + end_) / 2) (by omega) (push s node start end_) l r v node
          (not_isDesc_left_self node)
        have h3f := rangeUpdateHelper_frame (end_ - ((start + end_) / 2 + 1)) (2 * node + 2)
          ((start + end_) / 2 + 1) end_ (by omega)
          (rangeUpdateHelper (push s node start end_) l r v (2 * node + 1) start
            ((start + end_) / 2)) l r v node (not_isDesc_right_self node)
        have hzout :
            ({ rangeUpdateHelper (rangeUpdateHelper (push s node start end_) l r v
                  (2 * node + 1) start ((start + end_) / 2)) l r v (2 * node + 2)
                  ((start + end_) / 2 + 1) end_ with
                tree := upd (rangeUpdateHelper (rangeUpdateHelper (push s node start end_)
                  l r v (2 * node + 1) start ((start + end_) / 2)) l r v (2 * node + 2)
                  ((start + end_) / 2 + 1) end_).tree node
                  ((rangeUpdateHelper (rangeUpdateHelper (push s node start end_) l r v
                    (2 * node + 1) start ((start + end_) / 2)) l r v (2 * node + 2)
                    ((start + end_) / 2 + 1) end_).tree (2 * node + 1) +
                   (rangeUpdateHelper (rangeUpdateHelper (push s node start end_) l r v
                    (2 * node + 1) start ((start + end_) / 2)) l r v (2 * node + 2)
                    ((start + end_) / 2 + 1) end_).tree (2 * node + 2)) } : State).lazy node
              = 0 := by
          dsimp only
          rw [h3f.2, h2f.2, hz1]
        by_cases him : i ≤ (start + end_) / 2
        · rw [subDenote_child_left _ node start end_ i hlt hzout him]
          have hagA : agreeOn
              ({ rangeUpdateHelper (rangeUpdateHelper (push s node start end_) l r v
                    (2 * node + 1) start ((start + end_) / 2)) l r v (2 * node + 2)
                    ((start + end_) / 2 + 1) end_ with
                  tree := upd (rangeUpdateHelper (rangeUpdateHelper (push s node start end_)
                    l r v (2 * node + 1) start ((start + end_) / 2)) l r v (2 * node + 2)
                    ((start + end_) / 2 + 1) end_).tree node
                    ((rangeUpdateHelper (rangeUpdateHelper (push s node start end_) l r v
                      (2 * node + 1) start ((start + end_) / 2)) l r v (2 * node + 2)
                      ((start + end_) / 2 + 1) end_).tree (2 * node + 1) +
                     (rangeUpdateHelper (rangeUpdateHelper (push s node start end_) l r v
                      (2 * node + 1) start ((start + end_) / 2)) l r v (2 * node + 2)
                      ((start + end_) / 2 + 1) end_).tree (2 * node + 2)) } : State)
              (rangeUpdateHelper (rangeUpdateHelper (push s node start end_) l r v
                (2 * node + 1) start ((start + end_) / 2)) l r v (2 * node + 2)
                ((start + end_) / 2 + 1) end_) (2 * node + 1) := by
            intro j hj
            have hjn : j ≠ node := by
              have := isDesc_le j (2 * node + 1) hj
              omega
            exact ⟨upd_ne _ _ _ hjn, rfl⟩
          rw [subDenote_congr ((start + end_) / 2 - start) (2 * node + 1) start
            ((start + end_) / 2) (by omega) _ _ i hagA]
          have hagB : agreeOn
              (rangeUpdateHelper (rangeUpdateHelper (push s node start end_) l r v
                (2 * node + 1) start ((start + end_) / 2)) l r v (2 * node + 2)
                ((start + end_) / 2 + 1) end_)
              (rangeUpdateHelper (push s node start end_) l r v (2 * node + 1) start
                ((start + end_) / 2)) (2 * node + 1) := by
            intro j hj
            have hjR : ¬ isDesc (2 * node + 2) j := fun hd => isDesc_sibling j node hj hd
            exact rangeUpdateHelper_frame (end_ - ((start + end_) / 2 + 1)) (2 * node + 2)
              ((start + end_) / 2 + 1) end_ (by omega) _ l r v j hjR
          rw [subDenote_congr ((start + end_) / 2 - start) (2 * node + 1) start
            ((start + end_) / 2) (by omega) _ _ i hagB]
          rw [ih (2 * node + 1) start ((start + end_) / 2) (by omega)
            (push s node start end_) l r v i hi1 him]
          rw [← subDenote_child_left (push s node start end_) node start end_ i hlt hz1 him]
          rw [push_subDenote s node start end_ i (by omega)]
        · rw [subDenote_child_right _ node start end_ i hlt hzout him]
          have hagA : agreeOn
              ({ rangeUpdateHelper (rangeUpdateHelper (push s node start end_) l r v
                    (2 * node + 1) start ((start + end_) / 2)) l r v (2 * node + 2)
                    ((start + end_) / 2 + 1) end_ with
                  tree := upd (rangeUpdateHelper (rangeUpdateHelper (push s node start end_)
                    l r v (2 * node + 1) start ((start + end_) / 2)) l r v (2 * node + 2)
                    ((start + end_) / 2 + 1) end_).tree node
                    ((rangeUpdateHelper (rangeUpdateHelper (push s node start end_) l r v
                      (2 * node + 1) start ((start + end_) / 2)) l r v (2 * node + 2)
                      ((start + end_) / 2 + 1) end_).tree (2 * node + 1) +
                     (rangeUpdateHelper (rangeUpdateHelper (push s node start end_) l r v
                      (2 * node + 1) start ((start + end_) / 2)) l r v (2 * node + 2)
                      ((start + end_) / 2 + 1) end_).tree (2 * node + 2)) } : State)
              (rangeUpdateHelper (rangeUpdateHelper (push s node start end_) l r v
                (2 * node + 1) start ((start + end_) / 2)) l r v (2 * node + 2)
                ((start + end_) / 2 + 1) end_) (2 * node + 2) := by
            intro j hj
            have hjn : j ≠ node := by
              have := isDesc_le j (2 * node + 2) hj
              omega
            exact ⟨upd_ne _ _ _ hjn, rfl⟩
          rw [subDenote_congr (end_ - ((start + end_) / 2 + 1)) (2 * node + 2)
            ((start + end_) / 2 + 1) end_ (by omega) _ _ i hagA]
          rw [ih (2 * node + 2) ((start + end_) / 2 + 1) end_ (by omega)
            (rangeUpdateHelper (push s node start end_) l r v (2 * node + 1) start
              ((start + end_) / 2)) l r v i (by omega) hi2]
          have hagB : agreeOn
              (rangeUpdateHelper (push s node start end_) l r v (2 * node + 1) start
                ((start + end_) / 2))
              (push s node start end_) (2 * node + 2) := by
            intro j hj
            have hjL : ¬ isDesc (2 * node + 1) j := fun hd => isDesc_sibling j node hd hj
            exact rangeUpdateHelper_frame ((start + end_) / 2 - start) (2 * node + 1) start
              ((start + end_) / 2) (by omega) _ l r v j hjL
          rw [subDenote_congr (end_ - ((start + end_) / 2 + 1)) (2 * node + 2)
            ((start + end_) / 2 + 1) end_ (by omega) _ _ i hagB]
          rw [← subDenote_child_right (push s node start end_) node start end_ i hlt hz1 him]
          rw [push_subDenote s node start end_ i (by omega)]

end LazySegmentTree

namespace LazySegmentTree

theorem rangeQueryHelper_outside (s : State) (l r : Int) (node start end_ : Nat)
    (h : r < (start : Int) ∨ (end_ : Int) < l) :
    rangeQueryHelper s l r node start end_ = (s, 0) := by
  rw [rangeQueryHelper, dif_pos h]

theorem push_tree_node_leaf (s : State) (node start : Nat) :
    (push s node start start).tree node = s.tree node + s.lazy node := by
  by_cases hz : s.lazy node = 0
  · rw [push_zero s node start start hz, hz, add_zero]
  · rw [push_tree_apply, if_pos ⟨rfl, hz⟩]
    ring

theorem rangeQueryHelper_frame : ∀ (fuel node start end_ : Nat), end_ - start ≤ fuel →
    ∀ (s : State) (l r : Int) (j : Nat), ¬ isDesc node j →
      (rangeQueryHelper s l r node start end_).1.tree j = s.tree j ∧
        (rangeQueryHelper s l r node start end_).1.lazy j = s.lazy j := by
  intro fuel
  induction fuel with
  | zero =>
    intro node start end_ hf s l r j hj
    rw [rangeQueryHelper]
    by_cases h1 : r < (start : Int) ∨ (end_ : Int) < l
    · rw [dif_pos h1]
      exact ⟨rfl, rfl⟩
    · rw [dif_neg h1]
      dsimp only
      by_cases h2 : l ≤ (start : Int) ∧ (end_ : Int) ≤ r
      · rw [dif_pos h2]
        exact push_frame_off s node start end_ j hj
      · exfalso; omega
  | succ fuel ih =>
    intro node start end_ hf s l r j hj
    rw [rangeQueryHelper]
    by_cases h1 : r < (start : Int) ∨ (end_ : Int) < l
    · rw [dif_pos h1]
      exact ⟨rfl, rfl⟩
    · rw [dif_neg h1]
      dsimp only
      by_cases h2 : l ≤ (start : Int) ∧ (end_ : Int) ≤ r
      · rw [dif_pos h2]
        exact push_frame_off s node start end_ j hj
      · rw [dif_neg h2]
        dsimp only
        have hjL : ¬ isDesc (2 * node + 1) j := fun hd => hj (isDesc_up_left j node hd)
        have hjR : ¬ isDesc (2 * node + 2) j := fun hd => hj (isDesc_up_right j node hd)
        have hp := push_frame_off s node start end_ j hj
        have hfL := ih (2 * node + 1) start ((start + end_) / 2) (by omega)
          (push s node start end_) l r j hjL
        have hfR := ih (2 * node + 2) ((start + end_) / 2 + 1) end_ (by omega)
          (rangeQueryHelper (push s node start end_) l r (2 * node + 1) start
            ((start + end_) / 2)).1 l r j hjR
        exact ⟨by rw [hfR.1, hfL.1, hp.1], by rw [hfR.2, hfL.2, hp.2]⟩

theorem rangeQueryHelper_value_empty : ∀ (fuel node start end_ : Nat), end_ - start ≤ fuel →
    ∀ (s : State) (l r : Int), (r < l ∨ r < (start : Int) ∨ (end_ : Int) < l) →
      (rangeQueryHelper s l r node start end_).2 = 0 := by
  intro fuel
  induction fuel with
  | zero =>
    intro node start end_ hf s l r hemp
    rw [rangeQueryHelper]
    by_cases h1 : r < (start : Int) ∨ (end_ : Int) < l
    · rw [dif_pos h1]
    · rw [dif_neg h1]
      dsimp only
      by_cases h2 : l ≤ (start : Int) ∧ (end_ : Int) ≤ r
      · exfalso; omega
      · exfalso; omega
  | succ fuel ih =>
    intro node start end_ hf s l r hemp
    rw [rangeQueryHelper]
    by_cases h1 : r < (start : Int) ∨ (end_ : Int) < l
    · rw [dif_pos h1]
    · rw [dif_neg h1]
      dsimp only
      by_cases h2 : l ≤ (start : Int) ∧ (end_ : Int) ≤ r
      · exfalso; omega
      · rw [dif_neg h2]
        dsimp only
        rw [ih (2 * node + 1) start ((start + end_) / 2) (by omega)
            (push s node start end_) l r (by omega),
          ih (2 * node + 2) ((start + end_) / 2 + 1) end_ (by omega) _ l r (by omega),
          add_zero]

theorem rangeQueryHelper_single : ∀ (fuel node start end_ : Nat), end_ - start ≤ fuel →
    ∀ (s : State) (i : Nat), start ≤ i → i ≤ end_ →
      (rangeQueryHelper s (i : Int) (i : Int) node start end_).2
        = subDenote s node start end_ i := by
  intro fuel
  induction fuel with
  | zero =>
    intro node start end_ hf s i hi1 hi2
    rw [rangeQueryHelper,
      dif_neg (show ¬ ((i : Int) < (start : Int) ∨ (end_ : Int) < (i : Int)) by omega)]
    dsimp only
    rw [dif_pos (show (i : Int) ≤ (start : Int) ∧ (end_ : Int) ≤ (i : Int) by omega)]
    dsimp only
    have he : end_ = start := by omega
    rw [he, push_tree_node_leaf, subDenote]
    simp only [eq_self_iff_true, if_true]
  | succ fuel ih =>
    intro node start end_ hf s i hi1 hi2
    by_cases hse : start = end_
    · rw [rangeQueryHelper,
        dif_neg (show ¬ ((i : Int) < (start : Int) ∨ (end_ : Int) < (i : Int)) by omega)]
      dsimp only
      rw [dif_pos (show (i : Int) ≤ (start : Int) ∧ (end_ : Int) ≤ (i : Int) by omega)]
      dsimp only
      have he : end_ = start := hse.symm
      rw [he, push_tree_node_leaf, subDenote]
      simp only [eq_self_iff_true, if_true]
    · have hlt : start < end_ := by omega
      rw [rangeQueryHelper,
        dif_neg (show ¬ ((i : Int) < (start : Int) ∨ (end_ : Int) < (i : Int)) by omega)]
      dsimp only
      rw [dif_neg (show ¬ ((i : Int) ≤ (start : Int) ∧ (end_ : Int) ≤ (i : Int)) by omega)]
      dsimp only
      by_cases him : i ≤ (start + end_) / 2
      · rw [rangeQueryHelper_outside _ _ _ (2 * node + 2) ((start + end_) / 2 + 1) end_
          (Or.inl (by omega))]
        dsimp only
        rw [add_zero,
          ih (2 * node + 1) start ((start + end_) / 2) (by omega)
            (push s node start end_) i hi1 him,
          ← subDenote_child_left (push s node start end_) node start end_ i hlt
            (push_lazy_node s node start end_) him,
          push_subDenote s node start end_ i (by omega)]
      · rw [rangeQueryHelper_outside _ _ _ (2 * node + 1) start ((start + end_) / 2)
          (Or.inr (by omega))]
        dsimp only
        rw [zero_add,
          ih (2 * node + 2) ((start + end_) / 2 + 1) end_ (by omega)
            (push s node start end_) i (by omega) hi2,
          ← subDenote_child_right (push s node start end_) node start end_ i hlt
            (push_lazy_node s node start end_) him,
          push_subDenote s node start end_ i (by omega)]

end LazySegmentTree

namespace LazySegmentTree

theorem rangeQueryHelper_agree : ∀ (fuel node start end_ : Nat), end_ - start ≤ fuel →
    ∀ (s s' : State) (l r : Int), agreeOn s s' node →
      (rangeQueryHelper s l r node start end_).2
          = (rangeQueryHelper s' l r node start end_).2 ∧
        agreeOn (rangeQueryHelper s l r node start end_).1
          (rangeQueryHelper s' l r node start end_).1 node := by
  intro fuel
  induction fuel with
  | zero =>
    intro node start end_ hf s s' l r hag
    by_cases h1 : r < (start : Int) ∨ (end_ : Int) < l
    · rw [rangeQueryHelper_outside s l r node start end_ h1,
        rangeQueryHelper_outside s' l r node start end_ h1]
      exact ⟨rfl, hag⟩
    · rw [rangeQueryHelper, rangeQueryHelper, dif_neg h1, dif_neg h1]
      dsimp only
      by_cases h2 : l ≤ (start : Int) ∧ (end_ : Int) ≤ r
      · rw [dif_pos h2, dif_pos h2]
        have hagp := push_agree node start end_ hag
        exact ⟨(hagp node (isDesc_refl node)).1, hagp⟩
      · exfalso; omega
  | succ fuel ih =>
    intro node start end_ hf s s' l r hag
    by_cases h1 : r < (start : Int) ∨ (end_ : Int) < l
    · rw [rangeQueryHelper_outside s l r node start end_ h1,
        rangeQueryHelper_outside s' l r node start end_ h1]
      exact ⟨rfl, hag⟩
    · rw [rangeQueryHelper, rangeQueryHelper, dif_neg h1, dif_neg h1]
      dsimp only
      by_cases h2 : l ≤ (start : Int) ∧ (end_ : Int) ≤ r
      · rw [dif_pos h2, dif_pos h2]
        have hagp := push_agree node start end_ hag
        exact ⟨(hagp node (isDesc_refl node)).1, hagp⟩
      · rw [dif_neg h2, dif_neg h2]
        dsimp only
        have hlt : start < end_ := by omega
        have hagp := push_agree node start end_ hag
        have hagpL : agreeOn (push s node start end_) (push s' node start end_)
            (2 * node + 1) := fun j hj => hagp j (isDesc_up_left j node hj)
        have ihL := ih (2 * node + 1) start ((start + end_) / 2) (by omega)
          (push s node start end_) (push s' node start end_) l r hagpL
        have hagP1 : agreeOn
            (rangeQueryHelper (push s node start end_) l r (2 * node + 1) start
              ((start + end_) / 2)).1
            (rangeQueryHelper (push s' node start end_) l r (2 * node + 1) start
              ((start + end_) / 2)).1 node := by
          intro j hj
          by_cases hdj : isDesc (2 * node + 1) j
          · exact ihL.2 j hdj
          · have f1 := rangeQueryHelper_frame ((start + end_) / 2 - start) (2 * node + 1)
              start ((start + end_) / 2) (by omega) (push s node start end_) l r j hdj
            have f2 := rangeQueryHelper_frame ((start + end_) / 2 - start) (2 * node + 1)
              start ((start + end_) / 2) (by omega) (push s' node start end_) l r j hdj
            exact ⟨by rw [f1.1, f2.1, (hagp j hj).1], by rw [f1.2, f2.2, (hagp j hj).2]⟩
        have hagP1R : agreeOn
            (rangeQueryHelper (push s node start end_) l r (2 * node + 1) start
              ((start + end_) / 2)).1
            (rangeQueryHelper (push s' node start end_) l r (2 * node + 1) start
              ((start + end_) / 2)).1 (2 * node + 2) :=
          fun j hj => hagP1 j (isDesc_up_right j node hj)
        have ihR := ih (2 * node + 2) ((start + end_) / 2 + 1) end_ (by omega) _ _ l r hagP1R
        refine ⟨by rw [ihL.1, ihR.1], ?_⟩
        intro j hj
        by_cases hdj : isDesc (2 * node + 2) j
        · exact ihR.2 j hdj
        · have f1 := rangeQueryHelper_frame (end_ - ((start + end_) / 2 + 1)) (2 * node + 2)
            ((start + end_) / 2 + 1) end_ (by omega)
            (rangeQueryHelper (push s node start end_) l r (2 * node + 1) start
              ((start + end_) / 2)).1 l r j hdj
          have f2 := rangeQueryHelper_frame (end_ - ((start + end_) / 2 + 1)) (2 * node + 2)
            ((start + end_) / 2 + 1) end_ (by omega)
            (rangeQueryHelper (push s' node start end_) l r (2 * node + 1) start
              ((start + end_) / 2)).1 l r j hdj
          exact ⟨by rw [f1.1, f2.1, (hagP1 j hj).1], by rw [f1.2, f2.2, (hagP1 j hj).2]⟩

end LazySegmentTree

namespace LazySegmentTree

theorem rangeQueryHelper_idem : ∀ (fuel node start end_ : Nat), end_ - start ≤ fuel →
    ∀ (s : State) (l r : Int),
      rangeQueryHelper (rangeQueryHelper s l r node start end_).1 l r node start end_
        = rangeQueryHelper s l r node start end_ := by
  intro fuel
  induction fuel with
  | zero =>
    intro node start end_ hf s l r
    by_cases h1 : r < (start : Int) ∨ (end_ : Int) < l
    · rw [rangeQueryHelper_outside s l r node start end_ h1]
      dsimp only
      rw [rangeQueryHelper_outside s l r node start end_ h1]
    · by_cases h2 : l ≤ (start : Int) ∧ (end_ : Int) ≤ r
      · have e1 : rangeQueryHelper s l r node start end_
            = (push s node start end_, (push s node start end_).tree node) := by
          rw [rangeQueryHelper, dif_neg h1]
          dsimp only
          rw [dif_pos h2]
        rw [e1]
        dsimp only
        have e2 : rangeQueryHelper (push s node start end_) l r node start end_
            = (push (push s node start end_) node start end_,
                (push (push s node start end_) node start end_).tree node) := by
          rw [rangeQueryHelper, dif_neg h1]
          dsimp only
          rw [dif_pos h2]
        rw [e2, push_zero (push s node start end_) node start end_
          (push_lazy_node s node start end_)]
      · exfalso; omega
  | succ fuel ih =>
    intro node start end_ hf s l r
    by_cases h1 : r < (start : Int) ∨ (end_ : Int) < l
    · rw [rangeQueryHelper_outside s l r node start end_ h1]
      dsimp only
      rw [rangeQueryHelper_outside s l r node start end_ h1]
    · by_cases h2 : l ≤ (start : Int) ∧ (end_ : Int) ≤ r
      · have e1 : rangeQueryHelper s l r node start end_
            = (push s node start end_, (push s node start end_).tree node) := by
          rw [rangeQueryHelper, dif_neg h1]
          dsimp only
          rw [dif_pos h2]
        rw [e1]
        dsimp only
        have e2 : rangeQueryHelper (push s node start end_) l r node start end_
            = (push (push s node start end_) node start end_,
                (push (push s node start end_) node start end_).tree node) := by
          rw [rangeQueryHelper, dif_neg h1]
          dsimp only
          rw [dif_pos h2]
        rw [e2, push_zero (push s node start end_) node start end_
          (push_lazy_node s node start end_)]
      · have hlt : start < end_ := by omega
        have e1 : rangeQueryHelper s l r node start end_
            = ((rangeQueryHelper
                  (rangeQueryHelper (push s node start end_) l r (2 * node + 1) start
                    ((start + end_) / 2)).1 l r (2 * node + 2) ((start + end_) / 2 + 1)
                  end_).1,
                (rangeQueryHelper (push s node start end_) l r (2 * node + 1) start
                  ((start + end_) / 2)).2 +
                (rangeQueryHelper
                  (rangeQueryHelper (push s node start end_) l r (2 * node + 1) start
                    ((start + end_) / 2)).1 l r (2 * node + 2) ((start + end_) / 2 + 1)
                  end_).2) := by
          rw [rangeQueryHelper, dif_neg h1]
          dsimp only
          rw [dif_neg h2]
        rw [e1]
        dsimp only
        have hz1 : (push s node start end_).lazy node = 0 := push_lazy_node s node start end_
        have hz2 := (rangeQueryHelper_frame ((start + end_) / 2 - start) (2 * node + 1) start
          ((start + end_) / 2) (by omega) (push s node start end_) l r node
          (not_isDesc_left_self node)).2
        have hz3 := (rangeQueryHelper_frame (end_ - ((start + end_) / 2 + 1)) (2 * node + 2)
          ((start + end_) / 2 + 1) end_ (by omega)
          (rangeQueryHelper (push s node start end_) l r (2 * node + 1) start
            ((start + end_) / 2)).1 l r node (not_isDesc_right_self node)).2
        have hzX3 : (rangeQueryHelper
            (rangeQueryHelper (push s node start end_) l r (2 * node + 1) start
              ((start + end_) / 2)).1 l r (2 * node + 2) ((start + end_) / 2 + 1)
            end_).1.lazy node = 0 := by
          rw [hz3, hz2, hz1]
        have hagLX : agreeOn
            (rangeQueryHelper
              (rangeQueryHelper (push s node start end_) l r (2 * node + 1) start
                ((start + end_) / 2)).1 l r (2 * node + 2) ((start + end_) / 2 + 1) end_).1
            (rangeQueryHelper (push s node start end_) l r (2 * node + 1) start
              ((start + end_) / 2)).1 (2 * node + 1) := by
          intro j hj
          have hjR : ¬ isDesc (2 * node + 2) j := fun hd => isDesc_sibling j node hj hd
          exact rangeQueryHelper_frame (end_ - ((start + end_) / 2 + 1)) (2 * node + 2)
            ((start + end_) / 2 + 1) end_ (by omega) _ l r j hjR
        have hQL := rangeQueryHelper_agree ((start + end_) / 2 - start) (2 * node + 1) start
          ((start + end_) / 2) (by omega) _ _ l r hagLX
        have hIL := ih (2 * node + 1) start ((start + end_) / 2) (by omega)
          (push s node start end_) l r
        have eL : rangeQueryHelper
            (rangeQueryHelper
              (rangeQueryHelper (push s node start end_) l r (2 * node + 1) start
                ((start + end_) / 2)).1 l r (2 * node + 2) ((start + end_) / 2 + 1) end_).1
            l r (2 * node + 1) start ((start + end_) / 2)
            = ((rangeQueryHelper
                  (rangeQueryHelper (push s node start end_) l r (2 * node + 1) start
                    ((start + end_) / 2)).1 l r (2 * node + 2) ((start + end_) / 2 + 1)
                  end_).1,
                (rangeQueryHelper (push s node start end_) l r (2 * node + 1) start
                  ((start + end_) / 2)).2) := by
          refine Prod.ext_iff.mpr ⟨?_, ?_⟩
          · apply State.ext
            · funext j
              by_cases hdj : isDesc (2 * node + 1) j
              · rw [(hQL.2 j hdj).1, hIL, ← (hagLX j hdj).1]
              · exact (rangeQueryHelper_frame ((start + end_) / 2 - start) (2 * node + 1)
                  start ((start + end_) / 2) (by omega) _ l r j hdj).1
            · funext j
              by_cases hdj : isDesc (2 * node + 1) j
              · rw [(hQL.2 j hdj).2, hIL, ← (hagLX j hdj).2]
              · exact (rangeQueryHelper_frame ((start + end_) / 2 - start) (2 * node + 1)
                  start ((start + end_) / 2) (by omega) _ l r j hdj).2
          · rw [hQL.1, hIL]
        have ihR := ih (2 * node + 2) ((start + end_) / 2 + 1) end_ (by omega)
          (rangeQueryHelper (push s node start end_) l r (2 * node + 1) start
            ((start + end_) / 2)).1 l r
        rw [rangeQueryHelper, dif_neg h1]
        dsimp only
        rw [push_zero _ node start end_ hzX3, dif_neg h2]
        rw [eL]
        dsimp only
        rw [ihR]

end LazySegmentTree

namespace LazySegmentTree

theorem rangeQueryHelperSpec_frame : ∀ (fuel node start end_ : Nat), end_ - start ≤ fuel →
    ∀ (s : State) (l r : Int) (j : Nat), ¬ isDesc node j →
      (rangeQueryHelperSpec s l r node start end_).1.tree j = s.tree j ∧
        (rangeQueryHelperSpec s l r node start end_).1.lazy j = s.lazy j := by
  intro fuel
  induction fuel with
  | zero =>
    intro node start end_ hf s l r j hj
    rw [rangeQueryHelperSpec]
    dsimp only
    by_cases h1 : r < (start : Int) ∨ (end_ : Int) < l
    · rw [dif_pos h1]
      exact push_frame_off s node start end_ j hj
    · rw [dif_neg h1]
      by_cases h2 : l ≤ (start : Int) ∧ (end_ : Int) ≤ r
      · rw [dif_pos h2]
        exact push_frame_off s node start end_ j hj
      · exfalso; omega
  | succ fuel ih =>
    intro node start end_ hf s l r j hj
    rw [rangeQueryHelperSpec]
    dsimp only
    by_cases h1 : r < (start : Int) ∨ (end_ : Int) < l
    · rw [dif_pos h1]
      exact push_frame_off s node start end_ j hj
    · rw [dif_neg h1]
      by_cases h2 : l ≤ (start : Int) ∧ (end_ : Int) ≤ r
      · rw [dif_pos h2]
        exact push_frame_off s node start end_ j hj
      · rw [dif_neg h2]
        dsimp only
        have hjL : ¬ isDesc (2 * node + 1) j := fun hd => hj (isDesc_up_left j node hd)
        have hjR : ¬ isDesc (2 * node + 2) j := fun hd => hj (isDesc_up_right j node hd)
        have hp := push_frame_off s node start end_ j hj
        have hfL := ih (2 * node + 1) start ((start + end_) / 2) (by omega)
          (push s node start end_) l r j hjL
        have hfR := ih (2 * node + 2) ((start + end_) / 2 + 1) end_ (by omega)
          (rangeQueryHelperSpec (push s node start end_) l r (2 * node + 1) start
            ((start + end_) / 2)).1 l r j hjR
        exact ⟨by rw [hfR.1, hfL.1, hp.1], by rw [hfR.2, hfL.2, hp.2]⟩

theorem rangeQueryHelper_value_spec : ∀ (fuel node start end_ : Nat), end_ - start ≤ fuel →
    ∀ (s s' : State) (l r : Int), agreeOn s s' node →
      (rangeQueryHelper s l r node start end_).2
        = (rangeQueryHelperSpec s' l r node start end_).2 := by
  intro fuel
  induction fuel with
  | zero =>
    intro node start end_ hf s s' l r hag
    rw [rangeQueryHelper, rangeQueryHelperSpec]
    dsimp only
    by_cases h1 : r < (start : Int) ∨ (end_ : Int) < l
    · rw [dif_pos h1, dif_pos h1]
    · rw [dif_neg h1, dif_neg h1]
      by_cases h2 : l ≤ (start : Int) ∧ (end_ : Int) ≤ r
      · rw [dif_pos h2, dif_pos h2]
        exact (push_agree node start end_ hag node (isDesc_refl node)).1
      · exfalso; omega
  | succ fuel ih =>
    intro node start end_ hf s s' l r hag
    rw [rangeQueryHelper, rangeQueryHelperSpec]
    dsimp only
    by_cases h1 : r < (start : Int) ∨ (end_ : Int) < l
    · rw [dif_pos h1, dif_pos h1]
    · rw [dif_neg h1, dif_neg h1]
      by_cases h2 : l ≤ (start : Int) ∧ (end_ : Int) ≤ r
      · rw [dif_pos h2, dif_pos h2]
        exact (push_agree node start end_ hag node (isDesc_refl node)).1
      · rw [dif_neg h2, dif_neg h2]
        dsimp only
        have hagp := push_agree node start end_ hag
        have hagpL : agreeOn (push s node start end_) (push s' node start end_)
            (2 * node + 1) := fun j hj => hagp j (isDesc_up_left j node hj)
        have hvL := ih (2 * node + 1) start ((start + end_) / 2) (by omega)
          (push s node start end_) (push s' node start end_) l r hagpL
        have hagR : agreeOn
            (rangeQueryHelper (push s node start end_) l r (2 * node + 1) start
              ((start + end_) / 2)).1
            (rangeQueryHelperSpec (push s' node start end_) l r (2 * node + 1) start
              ((start + end_) / 2)).1 (2 * node + 2) := by
          intro j hj
          have hjL : ¬ isDesc (2 * node + 1) j := fun hd => isDesc_sibling j node hd hj
          have f1 := rangeQueryHelper_frame ((start + end_) / 2 - start) (2 * node + 1)
            start ((start + end_) / 2) (by omega) (push s node start end_) l r j hjL
          have f2 := rangeQueryHelperSpec_frame ((start + end_) / 2 - start) (2 * node + 1)
            start ((start + end_) / 2) (by omega) (push s' node start end_) l r j hjL
          have hpj := hagp j (isDesc_up_right j node hj)
          exact ⟨by rw [f1.1, f2.1, hpj.1], by rw [f1.2, f2.2, hpj.2]⟩
        have hvR := ih (2 * node + 2) ((start + end_) / 2 + 1) end_ (by omega) _ _ l r hagR
        rw [hvL, hvR]

end LazySegmentTree

/-! ## Wrapper-level helper lemmas -/

theorem range_eq_Icc (n : Nat) (hn : 1 ≤ n) : Finset.range n = Finset.Icc 0 (n - 1) := by
  rw [Finset.range_eq_Ico, show n = (n - 1) + 1 by omega, Nat.Ico_succ_right]
  congr 1

theorem eagerInv_init (a : Nat → Int) (n : Nat) (hn : 1 ≤ n) :
    eagerInv (SegmentTree.init a n) a 0 0 (n - 1) :=
  buildHelper_eagerInv (n - 1) 0 0 (n - 1) (by omega) (by omega) a _

theorem eagerInv_full_query (n : Nat) (t a : Nat → Int) (hn : 1 ≤ n)
    (h : eagerInv t a 0 0 (n - 1)) :
    SegmentTree.query t n 0 ((n : Int) - 1) = Finset.sum (Finset.range n) a := by
  rw [SegmentTree.query, SegmentTree.queryHelper]
  split_ifs with h1 h2
  · exfalso; omega
  · rw [eagerInv_sum (n - 1) 0 0 (n - 1) (by omega) (by omega) t a h,
      range_eq_Icc n hn]
  · exfalso; omega

theorem clampIdx_inbounds (n : Nat) (idx : Nat) (hn : 1 ≤ n) (hidx : idx < n) :
    clampIdx (idx : Int) 0 (n - 1) = idx := by
  simp only [clampIdx]
  split_ifs <;> omega

theorem clampIdx_over (n : Nat) (idx : Int) (hn : 1 ≤ n) (hidx : (n : Int) ≤ idx) :
    clampIdx idx 0 (n - 1) = n - 1 := by
  simp only [clampIdx]
  split_ifs <;> omega

theorem lazy_init_tree_root (a : Nat → Int) (n : Nat) (hn : 1 ≤ n) :
    (LazySegmentTree.init a n).tree 0 = Finset.sum (Finset.range n) a := by
  have h := eagerInv_init a n hn
  have hs := eagerInv_sum (n - 1) 0 0 (n - 1) (by omega) (by omega) _ a h
  rw [range_eq_Icc n hn]
  exact hs

theorem buildZ_empty_none : ∀ (fuel : Nat) (a : Int → Int) (t : Nat → Int) (node : Nat),
    buildZ a fuel t node 0 (-1) = none := by
  intro fuel
  induction fuel with
  | zero => intro a t node; rfl
  | succ fuel ih =>
    intro a t node
    rw [buildZ]
    rw [if_neg (show ¬ ((0 : Int) = -1) by decide)]
    have hm : Int.fdiv (0 + -1) 2 = -1 := by decide
    rw [hm]
    dsimp only
    rw [ih a t (2 * node + 1)]

/-! ## The claims -/

/-- C1: for every `LazySegmentTree` built from a sequence of length `n ≥ 1` and every
valid range `[l, r]` (`0 ≤ l ≤ r < n`) and delta `d`, after `range_update(l, r, d)`
the value observed via `range_query(i, i)` increases by exactly `d` for every index
`i ∈ [l, r]` and is unchanged for every other index `i < n` (the `if` in the
conclusion covers both cases at once). -/
theorem claim_C1 (n : Nat) (a : Nat → Int) (l r d : Int) (hn : 1 ≤ n) (hl : 0 ≤ l)
    (hlr : l ≤ r) (hr : r < (n : Int)) (i : Nat) (hi : i < n) :
    (LazySegmentTree.rangeQuery
        (LazySegmentTree.rangeUpdate (LazySegmentTree.init a n) n l r d) n i i).2
      = (LazySegmentTree.rangeQuery (LazySegmentTree.init a n) n i i).2
        + (if l ≤ (i : Int) ∧ (i : Int) ≤ r then d else 0) := by
  rw [LazySegmentTree.rangeQuery, LazySegmentTree.rangeQuery, LazySegmentTree.rangeUpdate,
    LazySegmentTree.rangeQueryHelper_single (n - 1) 0 0 (n - 1) (by omega) _ i (by omega)
      (by omega),
    LazySegmentTree.rangeQueryHelper_single (n - 1) 0 0 (n - 1) (by omega) _ i (by omega)
      (by omega),
    LazySegmentTree.rangeUpdateHelper_subDenote (n - 1) 0 0 (n - 1) (by omega) _ l r d i
      (by omega) (by omega)]

/-- C2: for every non-empty sequence, querying the full range `[0, n-1]` right after
construction returns the sum of all elements, both for the eager `SegmentTree`
(via `query`) and for the `LazySegmentTree` (via `range_query`). -/
theorem claim_C2 (n : Nat) (a : Nat → Int) (hn : 1 ≤ n) :
    SegmentTree.query (SegmentTree.init a n) n 0 ((n : Int) - 1)
        = Finset.sum (Finset.range n) a ∧
      (LazySegmentTree.rangeQuery (LazySegmentTree.init a n) n 0 ((n : Int) - 1)).2
        = Finset.sum (Finset.range n) a := by
  constructor
  · exact eagerInv_full_query n _ a hn (eagerInv_init a n hn)
  · rw [LazySegmentTree.rangeQuery, LazySegmentTree.rangeQueryHelper]
    split_ifs with h1 h2
    · exfalso; omega
    · dsimp only
      rw [LazySegmentTree.push_zero _ 0 0 (n - 1) rfl]
      exact lazy_init_tree_root a n hn
    · exfalso; omega

/-- C3: after `update(idx, x)` on an eager tree of size `n ≥ 1` whose arrays satisfy
the tree invariant for logical contents `a`: `query(idx, idx)` returns `x`,
`query(0, n-1)` returns the sum of all current leaf values (`a` with position `idx`
set to `x`), and `query(i, i)` is unchanged for the given index `i ≠ idx`. -/
theorem claim_C3 (n : Nat) (t a : Nat → Int) (idx : Nat) (x : Int) (i : Nat)
    (hn : 1 ≤ n) (ht : eagerInv t a 0 0 (n - 1)) (hidx : idx < n) (hi : i < n)
    (hne : i ≠ idx) :
    SegmentTree.query (SegmentTree.update t n (idx : Int) x) n (idx : Int) (idx : Int) = x ∧
      SegmentTree.query (SegmentTree.update t n (idx : Int) x) n 0 ((n : Int) - 1)
        = Finset.sum (Finset.range n) (upd a idx x) ∧
      SegmentTree.query (SegmentTree.update t n (idx : Int) x) n (i : Int) (i : Int)
        = SegmentTree.query t n (i : Int) (i : Int) := by
  have hupd := updateHelper_eagerInv (n - 1) 0 0 (n - 1) (by omega) (by omega) t a
    (idx : Int) x ht
  rw [clampIdx_inbounds n idx hn hidx] at hupd
  refine ⟨?_, ?_, ?_⟩
  · rw [SegmentTree.query, SegmentTree.update,
      queryHelper_single (n - 1) 0 0 (n - 1) (by omega) _ _ idx (by omega) (by omega) hupd,
      upd_same]
  · exact eagerInv_full_query n _ _ hn hupd
  · rw [SegmentTree.query, SegmentTree.update,
      queryHelper_single (n - 1) 0 0 (n - 1) (by omega) _ _ i (by omega) (by omega) hupd,
      SegmentTree.query,
      queryHelper_single (n - 1) 0 0 (n - 1) (by omega) _ _ i (by omega) (by omega) ht,
      upd_ne a idx x hne]

/-- C4: the eager-tree invariant (internal nodes hold the sum of their two children
at indices `2i+1`, `2i+2`; a leaf covering index `k` holds the current value at `k`)
holds after construction and is preserved by every `update(idx, x)` with
`0 ≤ idx < n`, the logical contents becoming `a` updated at `idx`. -/
theorem claim_C4 (n : Nat) (a t : Nat → Int) (idx : Nat) (x : Int) (hn : 1 ≤ n)
    (ht : eagerInv t a 0 0 (n - 1)) (hidx : idx < n) :
    eagerInv (SegmentTree.init a n) a 0 0 (n - 1) ∧
      eagerInv (SegmentTree.update t n (idx : Int) x) (upd a idx x) 0 0 (n - 1) := by
  refine ⟨eagerInv_init a n hn, ?_⟩
  have hupd := updateHelper_eagerInv (n - 1) 0 0 (n - 1) (by omega) (by omega) t a
    (idx : Int) x ht
  rw [clampIdx_inbounds n idx hn hidx] at hupd
  exact hupd

/-- C5: applying `range_update(l1, r1, d1)` and then `range_update(l2, r2, d2)` to a
freshly built `LazySegmentTree` changes the value observed via `range_query(i, i)`
by exactly `d1 + d2` for every index `i` lying in both (overlapping) ranges,
relative to the state before either update. -/
theorem claim_C5 (n : Nat) (a : Nat → Int) (l1 r1 d1 l2 r2 d2 : Int) (i : Nat)
    (hn : 1 ≤ n) (hv1 : 0 ≤ l1 ∧ l1 ≤ r1 ∧ r1 < (n : Int))
    (hv2 : 0 ≤ l2 ∧ l2 ≤ r2 ∧ r2 < (n : Int)) (hi : i < n)
    (hi1 : l1 ≤ (i : Int) ∧ (i : Int) ≤ r1) (hi2 : l2 ≤ (i : Int) ∧ (i : Int) ≤ r2) :
    (LazySegmentTree.rangeQuery
        (LazySegmentTree.rangeUpdate
          (LazySegmentTree.rangeUpdate (LazySegmentTree.init a n) n l1 r1 d1)
          n l2 r2 d2) n i i).2
      = (LazySegmentTree.rangeQuery (LazySegmentTree.init a n) n i i).2 + (d1 + d2) := by
  rw [LazySegmentTree.rangeQuery, LazySegmentTree.rangeQuery, LazySegmentTree.rangeUpdate,
    LazySegmentTree.rangeUpdate,
    LazySegmentTree.rangeQueryHelper_single (n - 1) 0 0 (n - 1) (by omega) _ i (by omega)
      (by omega),
    LazySegmentTree.rangeQueryHelper_single (n - 1) 0 0 (n - 1) (by omega) _ i (by omega)
      (by omega),
    LazySegmentTree.rangeUpdateHelper_subDenote (n - 1) 0 0 (n - 1) (by omega) _ l2 r2 d2 i
      (by omega) (by omega),
    LazySegmentTree.rangeUpdateHelper_subDenote (n - 1) 0 0 (n - 1) (by omega) _ l1 r1 d1 i
      (by omega) (by omega),
    if_pos hi1, if_pos hi2]
  ring

/-- C6: repeated `range_query(l, r)` calls with no intervening update return the same
integer each time, in the strong form that the whole query result (final state and
returned value) is idempotent, for every state and every range; iterating the
equation gives identity of all further repetitions.  The eager `SegmentTree.query`
is a pure function of its arguments in the embedding (it mutates nothing), so its
repetition-stability is the trivial second conjunct. -/
theorem claim_C6 (n : Nat) (s : LazySegmentTree.State) (l r : Int) :
    LazySegmentTree.rangeQuery ((LazySegmentTree.rangeQuery s n l r).1) n l r
        = LazySegmentTree.rangeQuery s n l r ∧
      ∀ t : Nat → Int, SegmentTree.query t n l r = SegmentTree.query t n l r := by
  refine ⟨?_, fun _ => rfl⟩
  exact LazySegmentTree.rangeQueryHelper_idem (n - 1) 0 0 (n - 1) (by omega) s l r

/-- C7 (amended): the implemented `range_query` returns the same value as the
spec's push-first query algorithm on every state and range; the resulting states,
however, are not always equal, because the implementation skips the push at nodes
fully outside the query range (see the counterexample). -/
theorem claim_C7 (n : Nat) (s : LazySegmentTree.State) (l r : Int) :
    (LazySegmentTree.rangeQuery s n l r).2 = (LazySegmentTree.rangeQuerySpec s n l r).2 := by
  rw [LazySegmentTree.rangeQuery, LazySegmentTree.rangeQuerySpec]
  exact LazySegmentTree.rangeQueryHelper_value_spec (n - 1) 0 0 (n - 1) (by omega) s s l r
    (fun j _ => ⟨rfl, rfl⟩)

/-- C8 (amended): calls with out-of-bounds arguments complete silently instead of
failing with an `InvalidRange` condition: an eager `update` with index `≥ n`
silently overwrites the last leaf (`n - 1`), queries over an inverted range return
`0`, and a lazy `range_update` over an inverted range leaves every observable
value unchanged. -/
theorem claim_C8 (n : Nat) (a t : Nat → Int) (s : LazySegmentTree.State)
    (l r idx x v : Int) (i : Nat) (hn : 1 ≤ n) (ht : eagerInv t a 0 0 (n - 1))
    (hidx : (n : Int) ≤ idx) (hlr : r < l) (hi : i < n) :
    eagerInv (SegmentTree.update t n idx x) (upd a (n - 1) x) 0 0 (n - 1) ∧
      SegmentTree.query t n l r = 0 ∧
      (LazySegmentTree.rangeQuery s n l r).2 = 0 ∧
      (LazySegmentTree.rangeQuery (LazySegmentTree.rangeUpdate s n l r v) n i i).2
        = (LazySegmentTree.rangeQuery s n i i).2 := by
  refine ⟨?_, ?_, ?_, ?_⟩
  · have hupd := updateHelper_eagerInv (n - 1) 0 0 (n - 1) (by omega) (by omega) t a idx x ht
    rw [clampIdx_over n idx hn hidx] at hupd
    exact hupd
  · exact queryHelper_empty (n - 1) 0 0 (n - 1) (by omega) t l r (Or.inl hlr)
  · exact LazySegmentTree.rangeQueryHelper_value_empty (n - 1) 0 0 (n - 1) (by omega) s l r
      (Or.inl hlr)
  · rw [LazySegmentTree.rangeQuery, LazySegmentTree.rangeQuery, LazySegmentTree.rangeUpdate,
      LazySegmentTree.rangeQueryHelper_single (n - 1) 0 0 (n - 1) (by omega) _ i (by omega)
        (by omega),
      LazySegmentTree.rangeQueryHelper_single (n - 1) 0 0 (n - 1) (by omega) _ i (by omega)
        (by omega),
      LazySegmentTree.rangeUpdateHelper_subDenote (n - 1) 0 0 (n - 1) (by omega) _ l r v i
        (by omega) (by omega),
      if_neg (show ¬ (l ≤ (i : Int) ∧ (i : Int) ≤ r) by omega), add_zero]

/-- C9 (amended): constructing either tree from an empty sequence does not fail with
an `InvalidSize` condition; the constructor calls `build(arr, 0, 0, -1)` and that
recursion never terminates (Python aborts with a `RecursionError` once the
interpreter recursion limit is hit).  The fuel-indexed model returns `none`
("still running") for every fuel bound, every input array and every node. -/
theorem claim_C9 : ∀ (a : Int → Int) (t : Nat → Int) (fuel node : Nat),
    buildZ a fuel t node 0 (-1) = none :=
  fun a t fuel node => buildZ_empty_none fuel a t node

/-- C10 (amended): for `n ≥ 1` and every range `[l, r]` disjoint from `[0, n-1]`
(inverted, entirely negative, or entirely beyond `n - 1`), `SegmentTree.query` and
`LazySegmentTree.range_query` return `0` without any error; the lazy call leaves
the tree and lazy arrays unchanged whenever the range misses the root interval
(`r < 0` or `l > n - 1`), but an inverted in-bounds range may push pending updates
and modify the arrays (see the counterexample), the returned value still being `0`. -/
theorem claim_C10 (n : Nat) (t : Nat → Int) (s : LazySegmentTree.State) (l r : Int)
    (hn : 1 ≤ n) (hdisj : r < l ∨ r < 0 ∨ (n : Int) - 1 < l) :
    SegmentTree.query t n l r = 0 ∧
      (LazySegmentTree.rangeQuery s n l r).2 = 0 ∧
      ((r < 0 ∨ (n : Int) - 1 < l) → LazySegmentTree.rangeQuery s n l r = (s, 0)) := by
  refine ⟨?_, ?_, ?_⟩
  · exact queryHelper_empty (n - 1) 0 0 (n - 1) (by omega) t l r (by omega)
  · exact LazySegmentTree.rangeQueryHelper_value_empty (n - 1) 0 0 (n - 1) (by omega) s l r
      (by omega)
  · intro hroot
    rw [LazySegmentTree.rangeQuery]
    exact LazySegmentTree.rangeQueryHelper_outside s l r 0 0 (n - 1) (by omega)

/-- C8 counterexample: on the tree built from `[1, 2, 3]` (size 3), the
out-of-bounds call `update(5, 7)` does not fail: it completes silently and
overwrites the last leaf, so `query(2, 2)` changes from `3` to `7`. -/
theorem claim_C8_counterexample :
    SegmentTree.query (SegmentTree.init (fun i => (i : Int) + 1) 3) 3
        ((2 : Nat) : Int) ((2 : Nat) : Int) = 3 ∧
      SegmentTree.query
        (SegmentTree.update (SegmentTree.init (fun i => (i : Int) + 1) 3) 3 5 7) 3
        ((2 : Nat) : Int) ((2 : Nat) : Int) = 7 := by
  have hEI := eagerInv_init (fun i => (i : Int) + 1) 3 (by decide)
  have hupd := updateHelper_eagerInv 2 0 0 2 (by decide) (by decide)
    (SegmentTree.init (fun i => (i : Int) + 1) 3) (fun i => (i : Int) + 1) 5 7 hEI
  rw [show clampIdx 5 0 2 = 2 by decide] at hupd
  constructor
  · rw [SegmentTree.query,
      queryHelper_single 2 0 0 2 (by decide) _ _ 2 (by decide) (by decide) hEI]
    norm_num
  · rw [SegmentTree.query, SegmentTree.update,
      queryHelper_single 2 0 0 2 (by decide) _ _ 2 (by decide) (by decide) hupd,
      upd_same]

/-- C9 counterexample: constructing from the empty sequence calls
`build(arr, 0, 0, -1)`; at the concrete fuel bound `1000` the recursion still has
not produced a result — it neither terminates nor raises any `InvalidSize`
condition (the general statement for every fuel is the amended theorem). -/
theorem claim_C9_counterexample :
    buildZ (fun _ => 0) 1000 (fun _ => 0) 0 0 (-1) = none :=
  buildZ_empty_none 1000 (fun _ => 0) (fun _ => 0) 0

/-- C10 counterexample: on the lazy tree built from `[0, 0, 0]` after
`range_update(0, 2, 1)` (a state with pending lazy values at the children of the
root), the inverted-range call `range_query(1, 0)` mutates the tree array: the
aggregate of node `1` changes (the traversal pushes at straddling nodes even
though the query range is empty), so the call does not leave the arrays
unchanged. -/
theorem claim_C10_counterexample :
    ((LazySegmentTree.rangeQuery
        (LazySegmentTree.rangeUpdate (LazySegmentTree.init (fun _ => 0) 3) 3 0 2 1)
        3 1 0).1).tree 1
      ≠ (LazySegmentTree.rangeUpdate (LazySegmentTree.init (fun _ => 0) 3) 3 0 2 1).tree 1 := by
  show (LazySegmentTree.rangeQueryHelper
      (LazySegmentTree.rangeUpdateHelper (LazySegmentTree.init (fun _ => 0) 3) 0 2 1 0 0 2)
      1 0 0 0 2).1.tree 1
    ≠ (LazySegmentTree.rangeUpdateHelper (LazySegmentTree.init (fun _ => 0) 3) 0 2 1 0 0 2).tree 1
  have e1 : LazySegmentTree.rangeUpdateHelper (LazySegmentTree.init (fun _ => 0) 3) 0 2 1 0 0 2
      = LazySegmentTree.push
          { LazySegmentTree.init (fun _ => 0) 3 with
            lazy := upd (LazySegmentTree.init (fun _ => 0) 3).lazy 0
              ((LazySegmentTree.init (fun _ => 0) 3).lazy 0 + 1) } 0 0 2 := by
    rw [LazySegmentTree.rangeUpdateHelper]
    dsimp only
    rw [LazySegmentTree.push_zero _ 0 0 2 rfl, dif_neg (by decide), dif_pos (by decide)]
  rw [e1]
  have hs0 : (LazySegmentTree.push
      { LazySegmentTree.init (fun _ => 0) 3 with
        lazy := upd (LazySegmentTree.init (fun _ => 0) 3).lazy 0
          ((LazySegmentTree.init (fun _ => 0) 3).lazy 0 + 1) } 0 0 2).lazy 0 = 0 :=
    LazySegmentTree.push_lazy_node _ 0 0 2
  have hs1 : (LazySegmentTree.push
      { LazySegmentTree.init (fun _ => 0) 3 with
        lazy := upd (LazySegmentTree.init (fun _ => 0) 3).lazy 0
          ((LazySegmentTree.init (fun _ => 0) 3).lazy 0 + 1) } 0 0 2).lazy 1 = 1 := by
    rw [LazySegmentTree.push_lazy_apply]
    norm_num [upd, LazySegmentTree.init]
  have ep1 : LazySegmentTree.rangeQueryHelper
      (LazySegmentTree.push
        { LazySegmentTree.init (fun _ => 0) 3 with
          lazy := upd (LazySegmentTree.init (fun _ => 0) 3).lazy 0
            ((LazySegmentTree.init (fun _ => 0) 3).lazy 0 + 1) } 0 0 2) 1 0 1 0 1
      = (LazySegmentTree.push
          (LazySegmentTree.push
            { LazySegmentTree.init (fun _ => 0) 3 with
              lazy := upd (LazySegmentTree.init (fun _ => 0) 3).lazy 0
                ((LazySegmentTree.init (fun _ => 0) 3).lazy 0 + 1) } 0 0 2) 1 0 1, 0) := by
    rw [LazySegmentTree.rangeQueryHelper, dif_neg (by decide)]
    dsimp only
    rw [dif_neg (by decide)]
    rw [LazySegmentTree.rangeQueryHelper_outside _ 1 0 3 0 0 (Or.inr (by decide)),
      LazySegmentTree.rangeQueryHelper_outside _ 1 0 4 1 1 (Or.inl (by decide))]
    simp
  have eqstate : (LazySegmentTree.rangeQueryHelper
      (LazySegmentTree.push
        { LazySegmentTree.init (fun _ => 0) 3 with
          lazy := upd (LazySegmentTree.init (fun _ => 0) 3).lazy 0
            ((LazySegmentTree.init (fun _ => 0) 3).lazy 0 + 1) } 0 0 2) 1 0 0 0 2).1
      = LazySegmentTree.push
          (LazySegmentTree.push
            { LazySegmentTree.init (fun _ => 0) 3 with
              lazy := upd (LazySegmentTree.init (fun _ => 0) 3).lazy 0
                ((LazySegmentTree.init (fun _ => 0) 3).lazy 0 + 1) } 0 0 2) 1 0 1 := by
    rw [LazySegmentTree.rangeQueryHelper, dif_neg (by decide)]
    dsimp only
    rw [LazySegmentTree.push_zero _ 0 0 2 hs0, dif_neg (by decide)]
    dsimp only
    rw [ep1, LazySegmentTree.rangeQueryHelper_outside _ 1 0 2 2 2 (Or.inl (by decide))]
  rw [eqstate, LazySegmentTree.push_tree_apply, if_pos ⟨rfl, by rw [hs1]; decide⟩, hs1]
  intro hcontra
  omega

/-- C7 counterexample: on the lazy tree built from `[1, 2]` after
`range_update(0, 1, 3)` (so both children of the root hold pending value `3`),
the call `range_query(0, 0)` leaves the pending value of node `2` untouched
(its range `[1, 1]` is fully outside and the implementation returns before
pushing), while the spec's push-first algorithm clears it; the resulting states
differ, refuting state-level equality of the two algorithms. -/
theorem claim_C7_counterexample :
    ((LazySegmentTree.rangeQuery
        (LazySegmentTree.rangeUpdate (LazySegmentTree.init (fun i => (i : Int) + 1) 2)
          2 0 1 3) 2 0 0).1).lazy 2
      ≠ ((LazySegmentTree.rangeQuerySpec
        (LazySegmentTree.rangeUpdate (LazySegmentTree.init (fun i => (i : Int) + 1) 2)
          2 0 1 3) 2 0 0).1).lazy 2 := by
  show ((LazySegmentTree.rangeQueryHelper
      (LazySegmentTree.rangeUpdateHelper (LazySegmentTree.init (fun i => (i : Int) + 1) 2)
        0 1 3 0 0 1) 0 0 0 0 1).1).lazy 2
    ≠ ((LazySegmentTree.rangeQueryHelperSpec
      (LazySegmentTree.rangeUpdateHelper (LazySegmentTree.init (fun i => (i : Int) + 1) 2)
        0 1 3 0 0 1) 0 0 0 0 1).1).lazy 2
  have e1 : LazySegmentTree.rangeUpdateHelper (LazySegmentTree.init (fun i => (i : Int) + 1) 2)
      0 1 3 0 0 1
      = LazySegmentTree.push
          { LazySegmentTree.init (fun i => (i : Int) + 1) 2 with
            lazy := upd (LazySegmentTree.init (fun i => (i : Int) + 1) 2).lazy 0
              ((LazySegmentTree.init (fun i => (i : Int) + 1) 2).lazy 0 + 3) } 0 0 1 := by
    rw [LazySegmentTree.rangeUpdateHelper]
    dsimp only
    rw [LazySegmentTree.push_zero _ 0 0 1 rfl, dif_neg (by decide), dif_pos (by decide)]
  rw [e1]
  set s0 : LazySegmentTree.State := LazySegmentTree.push
      { LazySegmentTree.init (fun i => (i : Int) + 1) 2 with
        lazy := upd (LazySegmentTree.init (fun i => (i : Int) + 1) 2).lazy 0
          ((LazySegmentTree.init (fun i => (i : Int) + 1) 2).lazy 0 + 3) } 0 0 1 with hs0def
  have hlz0 : s0.lazy 0 = 0 := by
    rw [hs0def]
    exact LazySegmentTree.push_lazy_node _ 0 0 1
  have hlz2 : s0.lazy 2 = 3 := by
    rw [hs0def, LazySegmentTree.push_lazy_apply]
    norm_num [upd, LazySegmentTree.init]
  have ep1 : LazySegmentTree.rangeQueryHelper s0 0 0 1 0 0
      = (LazySegmentTree.push s0 1 0 0, (LazySegmentTree.push s0 1 0 0).tree 1) := by
    rw [LazySegmentTree.rangeQueryHelper, dif_neg (by decide)]
    dsimp only
    rw [dif_pos (by decide)]
  have eimpl : (LazySegmentTree.rangeQueryHelper s0 0 0 0 0 1).1
      = LazySegmentTree.push s0 1 0 0 := by
    rw [LazySegmentTree.rangeQueryHelper, dif_neg (by decide)]
    dsimp only
    rw [LazySegmentTree.push_zero _ 0 0 1 hlz0, dif_neg (by decide)]
    dsimp only
    rw [ep1, LazySegmentTree.rangeQueryHelper_outside _ 0 0 2 1 1 (Or.inl (by decide))]
  have eq1 : LazySegmentTree.rangeQueryHelperSpec s0 0 0 1 0 0
      = (LazySegmentTree.push s0 1 0 0, (LazySegmentTree.push s0 1 0 0).tree 1) := by
    rw [LazySegmentTree.rangeQueryHelperSpec]
    dsimp only
    rw [dif_neg (by decide), dif_pos (by decide)]
  have eq2 : LazySegmentTree.rangeQueryHelperSpec (LazySegmentTree.push s0 1 0 0) 0 0 2 1 1
      = (LazySegmentTree.push (LazySegmentTree.push s0 1 0 0) 2 1 1, 0) := by
    rw [LazySegmentTree.rangeQueryHelperSpec]
    dsimp only
    rw [dif_pos (by decide)]
  have espec : (LazySegmentTree.rangeQueryHelperSpec s0 0 0 0 0 1).1
      = LazySegmentTree.push (LazySegmentTree.push s0 1 0 0) 2 1 1 := by
    rw [LazySegmentTree.rangeQueryHelperSpec]
    dsimp only
    rw [LazySegmentTree.push_zero _ 0 0 1 hlz0, dif_neg (by decide), dif_neg (by decide)]
    dsimp only
    rw [eq1]
    dsimp only
    rw [eq2]
  rw [eimpl, espec,
    (LazySegmentTree.push_frame s0 1 0 0 2 (by decide) (by decide) (by decide)).2,
    hlz2, LazySegmentTree.push_lazy_node]
  decide

/-- C1 witness: a concrete instance (`n = 1`, array `[5]`, `range_update(0, 0, 2)`,
observation at index `0`). -/
theorem claim_C1_witness :
    (LazySegmentTree.rangeQuery
        (LazySegmentTree.rangeUpdate (LazySegmentTree.init (fun _ => (5 : Int)) 1) 1 0 0 2)
        1 0 0).2
      = (LazySegmentTree.rangeQuery (LazySegmentTree.init (fun _ => (5 : Int)) 1) 1 0 0).2
        + (if (0 : Int) ≤ ((0 : Nat) : Int) ∧ ((0 : Nat) : Int) ≤ 0 then 2 else 0) :=
  claim_C1 1 (fun _ => (5 : Int)) 0 0 2 (by decide) (by decide) (by decide) (by decide) 0
    (by decide)

/-- C2 witness: a concrete instance (`n = 2`, array `[0, 1]`). -/
theorem claim_C2_witness :
    SegmentTree.query (SegmentTree.init (fun i => (i : Int)) 2) 2 0 1
        = Finset.sum (Finset.range 2) (fun i => (i : Int)) ∧
      (LazySegmentTree.rangeQuery (LazySegmentTree.init (fun i => (i : Int)) 2) 2 0 1).2
        = Finset.sum (Finset.range 2) (fun i => (i : Int)) :=
  claim_C2 2 (fun i => (i : Int)) (by decide)

/-- C3 witness: a concrete instance (`n = 2`, tree built from `[0, 1]`,
`update(1, 7)`, unchanged index `0`). -/
theorem claim_C3_witness :
    SegmentTree.query (SegmentTree.update (SegmentTree.init (fun i => (i : Int)) 2) 2 1 7)
        2 1 1 = 7 ∧
      SegmentTree.query (SegmentTree.update (SegmentTree.init (fun i => (i : Int)) 2) 2 1 7)
        2 0 1 = Finset.sum (Finset.range 2) (upd (fun i => (i : Int)) 1 7) ∧
      SegmentTree.query (SegmentTree.update (SegmentTree.init (fun i => (i : Int)) 2) 2 1 7)
        2 0 0 = SegmentTree.query (SegmentTree.init (fun i => (i : Int)) 2) 2 0 0 :=
  claim_C3 2 (SegmentTree.init (fun i => (i : Int)) 2) (fun i => (i : Int)) 1 7 0 (by decide)
    (eagerInv_init (fun i => (i : Int)) 2 (by decide)) (by decide) (by decide) (by decide)

/-- C4 witness: a concrete instance (`n = 1`, zero array, `update(0, 3)`). -/
theorem claim_C4_witness :
    eagerInv (SegmentTree.init (fun _ => (0 : Int)) 1) (fun _ => (0 : Int)) 0 0 0 ∧
      eagerInv (SegmentTree.update (SegmentTree.init (fun _ => (0 : Int)) 1) 1 0 3)
        (upd (fun _ => (0 : Int)) 0 3) 0 0 0 :=
  claim_C4 1 (fun _ => (0 : Int)) (SegmentTree.init (fun _ => (0 : Int)) 1) 0 3 (by decide)
    (eagerInv_init (fun _ => (0 : Int)) 1 (by decide)) (by decide)

/-- C5 witness: a concrete instance (`n = 3`, zero array, overlapping updates
`range_update(0, 1, 2)` and `range_update(1, 2, 5)`, observation at the common
index `1`). -/
theorem claim_C5_witness :
    (LazySegmentTree.rangeQuery
        (LazySegmentTree.rangeUpdate
          (LazySegmentTree.rangeUpdate (LazySegmentTree.init (fun _ => (0 : Int)) 3)
            3 0 1 2) 3 1 2 5) 3 1 1).2
      = (LazySegmentTree.rangeQuery (LazySegmentTree.init (fun _ => (0 : Int)) 3) 3 1 1).2
        + (2 + 5) :=
  claim_C5 3 (fun _ => (0 : Int)) 0 1 2 1 2 5 1 (by decide)
    (by refine ⟨by decide, by decide, by decide⟩)
    (by refine ⟨by decide, by decide, by decide⟩) (by decide)
    (by refine ⟨by decide, by decide⟩) (by refine ⟨by decide, by decide⟩)

/-- C8 witness: a concrete instance (`n = 1`, zero array, out-of-bounds
`update(5, 7)`, inverted range `(0, -1)`). -/
theorem claim_C8_witness :
    eagerInv (SegmentTree.update (SegmentTree.init (fun _ => (0 : Int)) 1) 1 5 7)
        (upd (fun _ => (0 : Int)) 0 7) 0 0 0 ∧
      SegmentTree.query (SegmentTree.init (fun _ => (0 : Int)) 1) 1 0 (-1) = 0 ∧
      (LazySegmentTree.rangeQuery ⟨fun _ => 0, fun _ => 0⟩ 1 0 (-1)).2 = 0 ∧
      (LazySegmentTree.rangeQuery
          (LazySegmentTree.rangeUpdate ⟨fun _ => 0, fun _ => 0⟩ 1 0 (-1) 2) 1 0 0).2
        = (LazySegmentTree.rangeQuery ⟨fun _ => 0, fun _ => 0⟩ 1 0 0).2 :=
  claim_C8 1 (fun _ => (0 : Int)) (SegmentTree.init (fun _ => (0 : Int)) 1)
    ⟨fun _ => 0, fun _ => 0⟩ 0 (-1) 5 7 2 0 (by decide)
    (eagerInv_init (fun _ => (0 : Int)) 1 (by decide)) (by decide) (by decide) (by decide)

/-- C10 witness: a concrete instance (`n = 1`, inverted and out-of-bounds range
`(2, 0)`). -/
theorem claim_C10_witness :
    SegmentTree.query (fun _ => (0 : Int)) 1 2 0 = 0 ∧
      (LazySegmentTree.rangeQuery ⟨fun _ => 0, fun _ => 0⟩ 1 2 0).2 = 0 ∧
      (((0 : Int) < 0 ∨ ((1 : Nat) : Int) - 1 < 2) →
        LazySegmentTree.rangeQuery ⟨fun _ => 0, fun _ => 0⟩ 1 2 0
          = (⟨fun _ => 0, fun _ => 0⟩, 0)) :=
  claim_C10 1 (fun _ => (0 : Int)) ⟨fun _ => 0, fun _ => 0⟩ 2 0 (by decide) (by decide)
